import Mathlib

/-!
# Verification of the hjson-ts codec

A shallow embedding, in Lean 4, of the hjson-ts TypeScript sources:

* `hjson-common.ts`  (number lexer, comment helpers, `forceComment`)
* `hjson-parse.ts`   (recursive-descent parser)
* `hjson-stringify.ts` (stringifier)
* `hjson-comments.ts` (comment extraction / merge)
* `hjson.ts`         (facade, `rt` round-trip entry points)

JavaScript's dynamic values are embedded as a closed tagged union `JValue`
(`AValue` when a node may carry the hidden `__COMMENTS__` annotation store).
JavaScript's one-character-string cursor (`''` at end of input) is embedded as
`Option Char`.  Finite doubles are modelled as exact rationals: every numeric
literal accepted by the number lexer denotes an exact decimal value, and the
theorems below only evaluate numbers on small integers where the model and
IEEE-754 agree; `String(n)` is modelled on that fragment (the exponential
display JavaScript uses for magnitudes ≥ 1e21 is outside the modelled range).
Unbounded `while` loops of the source become fuel-indexed recursion; fuel
exhaustion is a distinguished error `PErr.nofuel` that no source behaviour
maps to, and the universal theorems are stated so that they do not mistake
fuel exhaustion for a source-level parse error.
-/

set_option linter.unusedVariables false
set_option maxRecDepth 8000
set_option exponentiation.threshold 1100
set_option smartUnfolding false

namespace Hjson

/-- Source text as a list of characters (JS strings are indexed sequences). -/
abbrev Text := List Char

/-- `text.charAt(n)`: `none` models the empty string returned out of range. -/
def charAt (t : Text) (n : Nat) : Option Char := t[n]?

/-- `text[i]` with a possibly negative index: `none` models `undefined`. -/
def charAtZ (t : Text) (i : Int) : Option Char :=
  if i < 0 then none else t[i.toNat]?

/-- JS `ch <= c` where `ch` is the cursor register (a one-character string or
`''`): the empty string compares `<=` any character. -/
def chLe (ch : Option Char) (c : Char) : Bool :=
  match ch with
  | some a => a ≤ c
  | none => true

/-- JS `ch >= c` for the cursor register: `'' >= c` is false for `c ≠ ''`. -/
def chGe (ch : Option Char) (c : Char) : Bool :=
  match ch with
  | some a => c ≤ a
  | none => false

/-- JS `text[i] <= c` where `text[i]` may be `undefined`: comparisons with
`undefined` are false. -/
def idxLe (x : Option Char) (c : Char) : Bool :=
  match x with
  | some a => a ≤ c
  | none => false

/-- JS `text[i] > c` (`undefined` compares false). -/
def idxGt (x : Option Char) (c : Char) : Bool :=
  match x with
  | some a => c < a
  | none => false

/-- The ECMAScript white-space set used by `String.prototype.trim` and the
`\s` regex class. -/
def jsIsSpace (c : Char) : Bool :=
  c.val = 9 ∨ c.val = 10 ∨ c.val = 11 ∨ c.val = 12 ∨ c.val = 13 ∨ c.val = 32 ∨
  c.val = 0xa0 ∨ c.val = 0x1680 ∨ (0x2000 ≤ c.val ∧ c.val ≤ 0x200a) ∨
  c.val = 0x2028 ∨ c.val = 0x2029 ∨ c.val = 0x202f ∨ c.val = 0x205f ∨
  c.val = 0x3000 ∨ c.val = 0xfeff

/-- Propositional equality on `Except` results is decidable when both
component types decide equality (used to evaluate the embedding on concrete
inputs). -/
instance {e a : Type} [DecidableEq e] [DecidableEq a] :
    DecidableEq (Except e a) := fun x y =>
  match x, y with
  | .ok v, .ok w =>
    if h : v = w then isTrue (by rw [h])
    else isFalse (by intro hh; cases hh; exact h rfl)
  | .error v, .error w =>
    if h : v = w then isTrue (by rw [h])
    else isFalse (by intro hh; cases hh; exact h rfl)
  | .ok _, .error _ => isFalse (by intro hh; cases hh)
  | .error _, .ok _ => isFalse (by intro hh; cases hh)

/-- `s.trim()`. -/
def jsTrim (s : String) : String :=
  ⟨(s.data.dropWhile jsIsSpace).reverse.dropWhile jsIsSpace |>.reverse⟩

/-- `s.substr(start, len)` for a non-negative start; a non-positive length
yields the empty string. -/
def jsSubstr (t : Text) (start : Nat) (len : Int) : String :=
  if len ≤ 0 then "" else ⟨(t.drop start).take len.toNat⟩

/-- `s.substr(start)` (to the end of the string). -/
def jsSubstrFrom (t : Text) (start : Nat) : String := ⟨t.drop start⟩

/-- `s.indexOf(c)` returning an option instead of `-1`. -/
def jsIndexOf (t : Text) (c : Char) : Option Nat :=
  t.findIdx? (· = c)

/-- Splitting accumulator: the current piece is kept reversed. -/
def splitAux (c : Char) : Text → Text → List String
  | [], acc => [⟨acc.reverse⟩]
  | a :: rest, acc =>
    if a = c then (⟨acc.reverse⟩ : String) :: splitAux c rest []
    else splitAux c rest (a :: acc)

/-- `s.split(sep)` for a one-character separator. -/
def jsSplitOn (s : String) (c : Char) : List String :=
  splitAux c s.data []

/-- `arr.join(sep)`. -/
def jsJoin : List String → String → String
  | [], _ => ""
  | [x], _ => x
  | x :: rest, sep => x ++ sep ++ jsJoin rest sep

/-- `s.replace("\n", r)`: a string pattern replaces only the first
occurrence. -/
def jsReplaceFirst (s : String) (pat : Char) (r : String) : String :=
  match s.data.findIdx? (· = pat) with
  | none => s
  | some i => ⟨s.data.take i⟩ ++ r ++ ⟨s.data.drop (i + 1)⟩

/-- `s.replace(/pat/g, r)` for a one-character pattern. -/
def jsReplaceAll (s : String) (pat : Char) (r : String) : String :=
  ⟨(s.data.map (fun c => if c = pat then r.data else [c])).flatten⟩

/-! ## The value model

`JValue` is the payload type (§3 of the spec: the closed tagged union).
`undef` stands for every JavaScript value the codec cannot coerce
(`undefined`, functions, symbols); the stringifier maps it to `null`.
`AValue` is the same tree where composite nodes additionally carry the
out-of-band `__COMMENTS__` annotation store the parser and merger attach. -/

/-- Numbers as the codec observes them: finite doubles (modelled exactly as
rationals) or one of the non-finite values. -/
inductive JNum where
  | fin (q : ℚ)
  | nan
  | inf
  | negInf
deriving DecidableEq, Repr

/-- `isFinite(value)`. -/
def JNum.isFinite : JNum → Bool
  | .fin _ => true
  | _ => false

/-- The payload value tree. -/
inductive JValue where
  | null
  | bool (b : Bool)
  | num (n : JNum)
  | str (s : String)
  | arr (elems : List JValue)
  | obj (fields : List (String × JValue))
  | undef
deriving Repr

/-- The live annotation store (`Comments` in `types/comments.ts`), exactly the
fields the parser, merger and stringifier exchange.  Member entries are
two-element arrays `[before, after]` in the source and pairs here. -/
structure Comments where
  a : Option (List (Option (String × String))) := none
  c : Option (List (String × (String × String))) := none
  o : Option (List String) := none
  e : Option (String × String) := none
  r : Option (String × String) := none
deriving Repr

/-- A value tree whose composite nodes may carry an annotation store (the
source attaches it as the hidden `__COMMENTS__` property). -/
inductive AValue where
  | null
  | bool (b : Bool)
  | num (n : JNum)
  | str (s : String)
  | arr (elems : List AValue) (cm : Option Comments)
  | obj (fields : List (String × AValue)) (cm : Option Comments)
  | undef
deriving Repr

/-- `common.getComment(value)`: only objects and arrays can carry the hidden
property. -/
def getComment : AValue → Option Comments
  | .arr _ cm => cm
  | .obj _ cm => cm
  | _ => none

/-- `common.createComment(value, comments)` as a functional update: attaching
to a non-composite value is a no-op in the source. -/
def setCommentStore : AValue → Option Comments → AValue
  | .arr l _, cm => .arr l cm
  | .obj l _, cm => .obj l cm
  | v, _ => v

mutual

/-- Strip every annotation store: the payload of a value tree. -/
def payload : AValue → JValue
  | .null => .null
  | .bool b => .bool b
  | .num n => .num n
  | .str s => .str s
  | .undef => .undef
  | .arr l _ => .arr (payloadL l)
  | .obj l _ => .obj (payloadF l)

/-- `payload` mapped over array elements. -/
def payloadL : List AValue → List JValue
  | [] => []
  | v :: l => payload v :: payloadL l

/-- `payload` mapped over object members. -/
def payloadF : List (String × AValue) → List (String × JValue)
  | [] => []
  | (k, v) :: l => (k, payload v) :: payloadF l

end

mutual

/-- Embed a payload as an annotation-free value tree. -/
def plain : JValue → AValue
  | .null => .null
  | .bool b => .bool b
  | .num n => .num n
  | .str s => .str s
  | .undef => .undef
  | .arr l => .arr (plainL l) none
  | .obj l => .obj (plainF l) none

/-- `plain` mapped over array elements. -/
def plainL : List JValue → List AValue
  | [] => []
  | v :: l => plain v :: plainL l

/-- `plain` mapped over object members. -/
def plainF : List (String × JValue) → List (String × AValue)
  | [] => []
  | (k, v) :: l => (k, plain v) :: plainF l

end

/-! ## The number lexer (`tryParseNumber`, hjson-common.ts)

The lexer walks its argument with the same lookahead-one register the parser
uses: `ch` holds the current character (`none` for the empty string past the
end) and `rest` the unread remainder. -/

/-- Cursor state of the number lexer over its own token string. -/
structure NS where
  ch : Option Char
  rest : Text
deriving Repr

/-- `next()`: load the following character into the register. -/
def nsNext (s : NS) : NS := ⟨s.rest.head?, s.rest.tail⟩

/-- A digit in the ASCII range, as the source compares (`ch >= '0' && ch <= '9'`). -/
def isDigitCh (c : Char) : Bool := '0' ≤ c ∧ c ≤ '9'

/-- Value of a digit string, most significant first. -/
def digitsToNat (l : List Char) : Nat :=
  l.foldl (fun n c => n * 10 + (c.toNat - '0'.toNat)) 0

/-- The model of JavaScript coercion `+string` for the strings the number
lexer builds (optional sign, integer digits, optional fraction, optional
exponent): `none` models `NaN`.  `+""` is `0`. -/
def jsStringToNum (s : String) : Option ℚ :=
  let l := s.data
  let neg := l.head? = some '-'
  let l := if neg then l.tail else l
  let intD := l.takeWhile isDigitCh
  let l := l.dropWhile isDigitCh
  let hasDot := l.head? = some '.'
  let l := if hasDot then l.tail else l
  let fracD := l.takeWhile isDigitCh
  let l := l.dropWhile isDigitCh
  let hasExp := l.head? = some 'e' ∨ l.head? = some 'E'
  let l := if hasExp then l.tail else l
  let expNeg := l.head? = some '-'
  let l := if l.head? = some '-' ∨ l.head? = some '+' then l.tail else l
  let expD := l.takeWhile isDigitCh
  let l := l.dropWhile isDigitCh
  if l ≠ [] then none
  else if hasExp ∧ expD = [] then none
  else if intD = [] ∧ fracD = [] then
    (if neg ∨ hasDot ∨ hasExp then none else some 0)
  else
    let m : ℤ := (digitsToNat (intD ++ fracD) : ℤ)
    let m := if neg then -m else m
    let ex : ℤ :=
      (if expNeg then -(digitsToNat expD : ℤ) else (digitsToNat expD : ℤ)) -
        (fracD.length : ℤ)
    some (if 0 ≤ ex then mkRat (m * 10 ^ ex.toNat) 1 else mkRat m (10 ^ (-ex).toNat))

/-- The overflow boundary of a double. -/
def dblOverflow : ℚ := mkRat ((2 ^ 1024 : ℕ) : ℤ) 1

/-- `isFinite` on the rational model of a double: overflow to infinity starts
at magnitude `2^1024` (the exact rounding boundary near it is a property of
IEEE-754 that the claims below never exercise). -/
def jsIsFiniteQ (q : ℚ) : Bool :=
  mkRat (-((2 ^ 1024 : ℕ) : ℤ)) 1 < q ∧ q < dblOverflow

/-- The integer-digit loop of the lexer (counts leading zeros while it is
still testing the leading position).  The loop advances the register on
every iteration, so it recurses structurally on the unread remainder; the
inlined `[]` case is the iteration in which `next()` loads the empty
string. -/
def tpnIntLoop (st : String) (lz : Int) (testLeading : Bool)
    (ch : Option Char) (rest : Text) : String × Int × Bool × NS :=
  match ch with
  | some c =>
    if isDigitCh c then
      let lz := if testLeading then (if c = '0' then lz + 1 else lz) else lz
      let tl := if testLeading then decide (c = '0') else false
      match rest with
      | [] => (st.push c, lz, tl, ⟨none, []⟩)
      | a :: l => tpnIntLoop (st.push c) lz tl (some a) l
    else (st, lz, testLeading, ⟨ch, rest⟩)
  | none => (st, lz, testLeading, ⟨none, rest⟩)

/-- The fraction-digit loop: `while (next() && ch >= '0' && ch <= '9')`. -/
def tpnFracLoop (st : String) (rest : Text) : String × NS :=
  match rest with
  | [] => (st, ⟨none, []⟩)
  | a :: l => if isDigitCh a then tpnFracLoop (st.push a) l else (st, ⟨some a, l⟩)

/-- The exponent-digit loop. -/
def tpnExpLoop (st : String) (ch : Option Char) (rest : Text) : String × NS :=
  match ch with
  | some c =>
    if isDigitCh c then
      match rest with
      | [] => (st.push c, ⟨none, []⟩)
      | a :: l => tpnExpLoop (st.push c) (some a) l
    else (st, ⟨ch, rest⟩)
  | none => (st, ⟨none, rest⟩)

/-- The trailing-whitespace skip: `while (ch && ch <= ' ') next()`. -/
def tpnWsLoop (ch : Option Char) (rest : Text) : NS :=
  match ch with
  | some c =>
    if c ≤ ' ' then
      match rest with
      | [] => ⟨none, []⟩
      | a :: l => tpnWsLoop (some a) l
    else ⟨ch, rest⟩
  | none => ⟨none, rest⟩

/-- `common.tryParseNumber(text, stopAtNext)`: `none` is `undefined`.  With
`stopAtNext`, finding a punctuator or comment opener stores the character
`'\x00'` in the register — a truthy one-character string in the source, so the
final validity test fails (the original hjson-js stored the falsy number `0`;
this port's behaviour is modelled as written). -/
def tryParseNumber (text : String) (stopAtNext : Bool := false) : Option ℚ :=
  let s := nsNext ⟨none, text.data⟩
  let (st, s) := if s.ch = some '-' then ("-", nsNext s) else ("", s)
  let (st, lz, testLeading, s) := tpnIntLoop st 0 true s.ch s.rest
  let lz := if testLeading then lz - 1 else lz
  let (st, s) :=
    if s.ch = some '.' then tpnFracLoop (st.push '.') s.rest else (st, s)
  let (st, s) :=
    if s.ch = some 'e' ∨ s.ch = some 'E' then
      let st := st.push (if s.ch = some 'E' then 'E' else 'e')
      let s := nsNext s
      let (st, s) :=
        if s.ch = some '-' ∨ s.ch = some '+' then
          (st.push (if s.ch = some '-' then '-' else '+'), nsNext s)
        else (st, s)
      tpnExpLoop st s.ch s.rest
    else (st, s)
  let s := tpnWsLoop s.ch s.rest
  let s :=
    if stopAtNext ∧
        (s.ch = some ',' ∨ s.ch = some '}' ∨ s.ch = some ']' ∨
         s.ch = some '#' ∨
         (s.ch = some '/' ∧ (s.rest.head? = some '/' ∨ s.rest.head? = some '*'))) then
      ({ s with ch := some '\x00' } : NS)
    else s
  match jsStringToNum st with
  | none => none
  | some q =>
    if s.ch.isSome ∨ lz ≠ 0 ∨ ¬ jsIsFiniteQ q then none else some q

example : tryParseNumber "3" = some 3 := by decide
example : tryParseNumber "-4.2" = some (mkRat (-21) 5) := by decide
example : tryParseNumber "00" = none := by decide
example : tryParseNumber "0.5" = some (mkRat 1 2) := by decide
example : tryParseNumber "2e2" = some 200 := by decide
example : tryParseNumber "5e" = none := by decide
example : tryParseNumber "1 " = some 1 := by decide
example : tryParseNumber "1 x" = none := by decide
example : tryParseNumber "3, " = none := by decide
example : tryParseNumber "3 ," true = none := by decide

/-! ## `forceComment` (hjson-common.ts)

Coerces arbitrary text into well-formed comment lines: a line whose first
non-blank run is not already a comment opener is prefixed with `# `; a line
opening a `/*` block makes the loop skip every following line. -/

/-- The per-line scan of `forceComment`: walk the characters of one line and
report how the line is to be handled.  `inl true` means "prefix the line",
`inl false` means "leave it alone", `inr ()` means a `/*` opener was seen
(the source then jumps `j` past the end, leaving all later lines alone). -/
def forceCommentLine (l : List Char) : Bool ⊕ Unit :=
  match l with
  | [] => .inl false
  | c :: rest =>
    if c = '#' then .inl false
    else if c = '/' ∧ (rest.head? = some '/' ∨ rest.head? = some '*') then
      (if rest.head? = some '*' then .inr () else .inl false)
    else if ' ' < c then .inl true
    else forceCommentLine rest

/-- Process the list of lines, mirroring the `j` loop of `forceComment`. -/
def forceCommentLines : List String → List String
  | [] => []
  | l :: rest =>
    match forceCommentLine l.data with
    | .inl true => ("# " ++ l) :: forceCommentLines rest
    | .inl false => l :: forceCommentLines rest
    | .inr () => l :: rest

/-- `common.forceComment(text)`. -/
def forceComment (text : String) : String :=
  if text = "" then ""
  else jsJoin (forceCommentLines (jsSplitOn text '\n')) "\n"

example : forceComment "hello" = "# hello" := by decide
example : forceComment "# a\nb" = "# a\n# b" := by decide
example : forceComment "/* a\nb" = "/* a\nb" := by decide
example : forceComment "  " = "  " := by decide

/-! ## Parser state and errors (hjson-parse.ts) -/

/-- The parser cursor: `pos` models the source's `at` (the position of the
next unread character; `at` is a reserved word in Lean) and `ch` the
current-character register (`none` models the empty string). -/
structure PState where
  pos : Nat
  ch : Option Char
deriving Repr, DecidableEq

/-- Parser failures.  `syn` carries the message together with the line,
column, snippet and `hint` data the source embeds in the thrown `Error`;
`typeErr` models a JavaScript `TypeError` raised by the comment plumbing;
`config` models the configuration errors of the DSF loader; `nofuel` is the
modelling artifact for exhausted recursion fuel (no source behaviour). -/
inductive PErr where
  | syn (msg : String) (line col : Nat) (snippet : String) (hint : String)
  | typeErr (msg : String)
  | config (msg : String)
  | nofuel
deriving Repr, DecidableEq

/-- The rendered message of a syntax error, as the source concatenates it. -/
def PErr.text : PErr → String
  | .syn m line col snippet _ =>
    m ++ " at line " ++ toString line ++ "," ++ toString col ++ " >>> " ++
      snippet ++ " ..."
  | .typeErr m => m
  | .config m => m
  | .nofuel => "out of fuel"

/-- `next()`: read `text.charAt(at)` into the register and advance. -/
def pnext (t : Text) (s : PState) : PState := ⟨s.pos + 1, charAt t s.pos⟩

/-- `peek(offs)`. -/
def ppeek (t : Text) (s : PState) (offs : Int := 0) : Option Char :=
  charAtZ t ((s.pos : Int) + offs)

/-- `isPunctuatorChar(c)`. -/
def isPunctuatorChar (c : Char) : Bool :=
  c = '{' ∨ c = '}' ∨ c = '[' ∨ c = ']' ∨ c = ',' ∨ c = ':'

/-- The punctuator test applied to the register. -/
def chPunct (ch : Option Char) : Bool :=
  match ch with
  | some c => isPunctuatorChar c
  | none => false

/-- The column loop of `error(m)`:
`for (i = at - 1; i > 0 && text[i] !== '\n'; i--, col++) {}` — it stops at
index `0` or at a newline, whichever is met first walking backwards. -/
def errColLoop (t : Text) : Nat → Nat → Nat × Nat
  | 0, col => (0, col)
  | i + 1, col =>
    if charAt t (i + 1) ≠ some '\n' then errColLoop t i (col + 1)
    else (i + 1, col)

/-- The line loop of `error(m)`: one plus the number of newline characters at
positions `1 .. i` (position `0` is never examined in the source). -/
def errLineLoop (t : Text) : Nat → Nat
  | 0 => 1
  | i + 1 => (if charAt t (i + 1) = some '\n' then 1 else 0) + errLineLoop t i

/-- `error(m)` at cursor position `at`: line, column, and the snippet
`text.substr(at - col, 20)`. -/
def errInfo (t : Text) (m : String) (att : Nat) : PErr :=
  let ic := errColLoop t (att - 1) 0
  .syn m (errLineLoop t ic.1) ic.2 (jsSubstr t (att - ic.2) 20) ""

/-! ## Whitespace and comment skipping -/

/-- `while (ch && ch <= ' ') next()`. -/
def whiteWs (t : Text) : Nat → PState → Except PErr PState
  | 0, _ => .error .nofuel
  | f + 1, s =>
    match s.ch with
    | some c => if c ≤ ' ' then whiteWs t f (pnext t s) else .ok s
    | none => .ok s

/-- `while (ch && ch !== '\n') next()` — skip a `#` or `//` comment. -/
def whiteLine (t : Text) : Nat → PState → Except PErr PState
  | 0, _ => .error .nofuel
  | f + 1, s =>
    match s.ch with
    | some c => if c ≠ '\n' then whiteLine t f (pnext t s) else .ok s
    | none => .ok s

/-- `while (ch && !(ch === '*' && peek() === '/')) next()` — skip to the
closer of a block comment. -/
def whiteBlock (t : Text) : Nat → PState → Except PErr PState
  | 0, _ => .error .nofuel
  | f + 1, s =>
    match s.ch with
    | some c =>
      if c = '*' ∧ ppeek t s = some '/' then .ok s
      else whiteBlock t f (pnext t s)
    | none => .ok s

/-- `white()`: interleaved whitespace and comment skipping. -/
def white (t : Text) : Nat → PState → Except PErr PState
  | 0, _ => .error .nofuel
  | f + 1, s => do
    match s.ch with
    | none => return s
    | some _ =>
      let s ← whiteWs t (f + 1) s
      if s.ch = some '#' ∨ (s.ch = some '/' ∧ ppeek t s = some '/') then
        let s ← whiteLine t (f + 1) s
        white t f s
      else if s.ch = some '/' ∧ ppeek t s = some '*' then
        let s := pnext t (pnext t s)
        let s ← whiteBlock t (f + 1) s
        let s := if s.ch.isSome then pnext t (pnext t s) else s
        white t f s
      else return s

/-! ## Comment text extraction (`getComment` of the parser) -/

/-- The backward scan
`for (i = at - 2; i > cAt && text[i] <= ' ' && text[i] !== '\n'; i--);`
(indices are integers: the source may look at `text[-1]`, which is
`undefined` and stops the loop). -/
def gcScanAux (t : Text) (cAt : Int) : Nat → Int → Int
  | 0, i => i
  | f + 1, i =>
    if i > cAt ∧ idxLe (charAtZ t i) ' ' ∧ charAtZ t i ≠ some '\n' then
      gcScanAux t cAt f (i - 1)
    else i

/-- The backward scan with enough fuel for its full range. -/
def gcScan (t : Text) (cAt i : Int) : Int :=
  gcScanAux t cAt ((i - cAt).toNat + 1) i

/-- `getComment(cAt, first)` of the parser: extracts the raw comment text
between `cAt` and the current position as zero, one or two strings. -/
def getCommentStrs (t : Text) (cAt0 : Nat) (att : Nat) (first : Bool) :
    List String :=
  let cAt : Int := (cAt0 : Int) - 1
  let i := gcScan t cAt ((att : Int) - 2)
  let i := if charAtZ t i = some '\n' then i - 1 else i
  let i := if charAtZ t i = some '\r' then i - 1 else i
  let res := jsSubstr t cAt.toNat (i - cAt + 1)
  if res.data.any (fun c => ' ' < c) then
    match jsIndexOf res.data '\n' with
    | some j =>
      let c0 := jsSubstr res.data 0 (j : Int)
      let c1 := jsSubstrFrom res.data (j + 1)
      if first ∧ jsTrim c0 = "" then [c1] else [c0, c1]
    | none => [res]
  else []

/-! ## Quoted strings and multiline strings -/

/-- The escape table `escapee`. -/
def escapee : Char → Option Char
  | '"' => some '"'
  | '\'' => some '\''
  | '\\' => some '\\'
  | '/' => some '/'
  | 'b' => some (Char.ofNat 8)
  | 'f' => some (Char.ofNat 12)
  | 'n' => some '\n'
  | 'r' => some '\r'
  | 't' => some '\t'
  | _ => none

/-- The register as a string, for error messages (`"" + ch`). -/
def chStr : Option Char → String
  | some c => ⟨[c]⟩
  | none => ""

/-- One hex digit of a `\u` escape. -/
def hexVal (c : Char) : Option Nat :=
  if '0' ≤ c ∧ c ≤ '9' then some (c.toNat - 48)
  else if 'a' ≤ c ∧ c ≤ 'f' then some (c.toNat - 97 + 10)
  else if 'A' ≤ c ∧ c ≤ 'F' then some (c.toNat - 65 + 10)
  else none

/-- The four-digit `\uXXXX` loop.  `String.fromCharCode` of a lone surrogate
has no `Char` counterpart; `Char.ofNat` then yields `'\x00'`, which no claim
below exercises. -/
def readUnicode (t : Text) : Nat → Nat → PState → Except PErr (Nat × PState)
  | 0, acc, s => .ok (acc, s)
  | n + 1, acc, s =>
    let s := pnext t s
    match s.ch with
    | some c =>
      match hexVal c with
      | some h => readUnicode t n (acc * 16 + h) s
      | none => .error (errInfo t ("Bad \\u char " ++ ⟨[c]⟩) s.pos)
    | none => .error (errInfo t "Bad \\u char " s.pos)

/-- The indentation measurement of `mlString`:
`for(;;){ c = peek(-indent-5); if (!c || c === '\n') break; indent++ }`. -/
def mlIndentLoop (t : Text) (att : Nat) : Nat → Nat → Nat
  | 0, ind => ind
  | f + 1, ind =>
    let c := charAtZ t ((att : Int) - (ind : Int) - 5)
    if c = none ∨ c = some '\n' then ind else mlIndentLoop t att f (ind + 1)

/-- `skipIndent()`: consume at most `skip` blanks that are not newlines. -/
def mlSkipIndent (t : Text) : Nat → Nat → PState → Except PErr PState
  | 0, _, _ => .error .nofuel
  | f + 1, skip, s =>
    match s.ch with
    | some c =>
      if c ≤ ' ' ∧ c ≠ '\n' ∧ 0 < skip then mlSkipIndent t f (skip - 1) (pnext t s)
      else .ok s
    | none => .ok s

/-- `while (ch && ch <= ' ' && ch !== '\n') next()`. -/
def mlWsToNl (t : Text) : Nat → PState → Except PErr PState
  | 0, _ => .error .nofuel
  | f + 1, s =>
    match s.ch with
    | some c =>
      if c ≤ ' ' ∧ c ≠ '\n' then mlWsToNl t f (pnext t s) else .ok s
    | none => .ok s

/-- The body loop of `mlString`: accumulates the string, counting a run of
single quotes in `triple`. -/
def mlLoop (t : Text) (indent : Nat) : Nat → String → Nat → PState →
    Except PErr (String × PState)
  | 0, _, _, _ => .error .nofuel
  | f + 1, str, triple, s =>
    match s.ch with
    | none => .error (errInfo t "Bad multiline string" s.pos)
    | some c =>
      if c = '\'' then
        let triple := triple + 1
        let s := pnext t s
        if triple = 3 then
          .ok ((if str.data.getLast? = some '\n' then (⟨str.data.dropLast⟩ : String)
                else str), s)
        else mlLoop t indent f str triple s
      else
        let str := str ++ (⟨List.replicate triple '\''⟩ : String)
        if c = '\n' then do
          let s ← mlSkipIndent t (f + 1) indent (pnext t s)
          mlLoop t indent f (str.push '\n') 0 s
        else
          let str := if c ≠ '\r' then str.push c else str
          mlLoop t indent f str 0 s

/-- `mlString()`. -/
def mlString (t : Text) (fuel : Nat) (s : PState) : Except PErr (String × PState) := do
  let indent := mlIndentLoop t s.pos (s.pos + 6) 0
  let s ← mlWsToNl t fuel s
  let s ← if s.ch = some '\n' then mlSkipIndent t fuel indent (pnext t s) else pure s
  mlLoop t indent fuel "" 0 s

/-- The body loop of `string(allowML)`; `exitCh` is the opening quote. -/
def pstringLoop (t : Text) (allowML : Bool) (exitCh : Char) :
    Nat → String → PState → Except PErr (String × PState)
  | 0, _, _ => .error .nofuel
  | f + 1, str, s =>
    let s := pnext t s
    match s.ch with
    | none => .error (errInfo t "Bad string" s.pos)
    | some c =>
      if c = exitCh then
        let s := pnext t s
        if allowML ∧ exitCh = '\'' ∧ s.ch = some '\'' ∧ str.length = 0 then
          mlString t f (pnext t s)
        else .ok (str, s)
      else if c = '\\' then
        let s := pnext t s
        if s.ch = some 'u' then do
          let (code, s) ← readUnicode t 4 0 s
          pstringLoop t allowML exitCh f (str.push (Char.ofNat code)) s
        else
          match s.ch.bind escapee with
          | some e => pstringLoop t allowML exitCh f (str.push e) s
          | none => .error (errInfo t "Bad string" s.pos)
      else if c = '\n' ∨ c = '\r' then
        .error (errInfo t "Bad string containing newline" s.pos)
      else pstringLoop t allowML exitCh f (str.push c) s

/-- `string(allowML)`: the register holds the opening quote on entry. -/
def pstring (t : Text) (fuel : Nat) (allowML : Bool) (s : PState) :
    Except PErr (String × PState) :=
  match s.ch with
  | some exitCh => pstringLoop t allowML exitCh fuel "" s
  | none => .error (errInfo t "Bad string" s.pos)

/-! ## Key names -/

/-- The accumulation loop of `keyname()` (`start` is the position where the
scan began, `space` the length of the name when its first blank was seen,
`-1` when none was). -/
def keynameLoop (t : Text) (start : Nat) :
    Nat → String → Int → PState → Except PErr (String × PState)
  | 0, _, _, _ => .error .nofuel
  | f + 1, name, space, s =>
    match s.ch with
    | some ':' =>
      if name = "" then
        .error (errInfo t "Found ':' but no key name (for an empty key name use quotes)" s.pos)
      else if 0 ≤ space ∧ space ≠ (name.length : Int) then
        .error (errInfo t "Found whitespace in your key name (use quotes to include)"
          (start + space.toNat))
      else .ok (name, s)
    | some c =>
      if c ≤ ' ' then
        let space := if space < 0 then (name.length : Int) else space
        keynameLoop t start f name space (pnext t s)
      else if isPunctuatorChar c then
        .error (errInfo t ("Found '" ++ (⟨[c]⟩ : String) ++
          "' where a key name was expected (check your syntax or use quotes if the key name includes \x7b\x7d[],: or whitespace)") s.pos)
      else keynameLoop t start f (name.push c) space (pnext t s)
    | none =>
      .error (errInfo t "Found EOF while looking for a key name (check your syntax)" s.pos)

/-- `keyname()`. -/
def keyname (t : Text) (fuel : Nat) (s : PState) : Except PErr (String × PState) :=
  if s.ch = some '"' ∨ s.ch = some '\'' then pstring t fuel false s
  else keynameLoop t s.pos fuel "" (-1) s

/-! ## Quoteless scalars (`tfnns`) -/

/-- A DSF parse hook: receives the trimmed token, may return any value. -/
abbrev ParseHook := String → Option AValue

/-- `runDsf`: first hook returning a defined value wins. -/
def runDsfP : List ParseHook → String → Option AValue
  | [], _ => none
  | h :: rest, v =>
    match h v with
    | some r => some r
    | none => runDsfP rest v

/-- The `switch (chf)` of `tfnns`: keyword and number resolution attempted at
every terminator.  The number branch runs only when the first accumulated
character is a minus or a digit. -/
def tfnnsKeyword (v : String) : Option AValue :=
  match v.data.head? with
  | some 'f' => if jsTrim v = "false" then some (.bool false) else none
  | some 'n' => if jsTrim v = "null" then some .null else none
  | some 't' => if jsTrim v = "true" then some (.bool true) else none
  | some c =>
    if c = '-' ∨ ('0' ≤ c ∧ c ≤ '9') then
      (tryParseNumber v).map (fun q => .num (.fin q))
    else none
  | none => none

/-- The accumulation loop of `tfnns`. -/
def tfnnsLoop (t : Text) (hooks : List ParseHook) :
    Nat → String → PState → Except PErr (AValue × PState)
  | 0, _, _ => .error .nofuel
  | f + 1, v, s =>
    let s := pnext t s
    match s.ch with
    | none =>
      match tfnnsKeyword v with
      | some w => .ok (w, s)
      | none =>
        let v := jsTrim v
        match runDsfP hooks v with
        | some dv => .ok (dv, s)
        | none => .ok (.str v, s)
    | some c =>
      if c = '\r' ∨ c = '\n' then
        match tfnnsKeyword v with
        | some w => .ok (w, s)
        | none =>
          let v := jsTrim v
          match runDsfP hooks v with
          | some dv => .ok (dv, s)
          | none => .ok (.str v, s)
      else if c = ',' ∨ c = '}' ∨ c = ']' ∨ c = '#' ∨
          (c = '/' ∧ (ppeek t s = some '/' ∨ ppeek t s = some '*')) then
        match tfnnsKeyword v with
        | some w => .ok (w, s)
        | none => tfnnsLoop t hooks f (v.push c) s
      else tfnnsLoop t hooks f (v.push c) s

/-- `tfnns()`: quoteless true/false/null/number/string scan. -/
def tfnns (t : Text) (hooks : List ParseHook) (fuel : Nat) (s : PState) :
    Except PErr (AValue × PState) :=
  if chPunct s.ch then
    .error (errInfo t ("Found a punctuator character '" ++ chStr s.ch ++
      "' when expecting a quoteless string (check your syntax)") s.pos)
  else tfnnsLoop t hooks fuel (chStr s.ch) s

/-! ## Error hints (`errorClosingHint`) -/

mutual

/-- `search(value, ch)`: a string value containing `ch`, the last hit
winning (`res = search(...) || res` with ascending iteration). -/
def searchCh : AValue → Char → Option String
  | .str v, c => if v.data.contains c then some v else none
  | .arr l _, c => searchChL l c
  | .obj l _, c => searchChF l c
  | _, _ => none

/-- `search` over array elements. -/
def searchChL : List AValue → Char → Option String
  | [], _ => none
  | v :: rest, c =>
    match searchChL rest c with
    | some r => some r
    | none => searchCh v c

/-- `search` over object members. -/
def searchChF : List (String × AValue) → Char → Option String
  | [], _ => none
  | (_, v) :: rest, c =>
    match searchChF rest c with
    | some r => some r
    | none => searchCh v c

end

/-- `report(ch)` of `errorClosingHint`. -/
def reportCh (v : AValue) (c : Char) : String :=
  match searchCh v c with
  | some pe =>
    "found '" ++ (⟨[c]⟩ : String) ++
      "' in a string value, your mistake could be with:\n  > " ++ pe ++
      "\n  (unquoted strings contain everything up to the next line!)"
  | none => ""

/-- `errorClosingHint(value)`: `report('\x7d') || report(']')`. -/
def errorClosingHint (v : AValue) : String :=
  if reportCh v '}' ≠ "" then reportCh v '}' else reportCh v ']'

/-- `e.hint = e.hint || errorClosingHint(value)` in the catch blocks of
`array()` and `object()`.  Fuel exhaustion is a modelling artifact and passes
through untouched; so do the non-syntax errors, whose carrier objects the
claims never observe. -/
def attachHint (e : PErr) (v : AValue) : PErr :=
  match e with
  | .syn m l c sn h => if h = "" then .syn m l c sn (errorClosingHint v) else e
  | e => e

/-! ## DSF hooks and parse options -/

/-- A DSF stringify hook. -/
abbrev StringifyHook := AValue → Option String

/-- A DSF module record (`{name, description, parse, stringify}`). -/
structure PDsf where
  name : String
  description : String := ""
  parse : ParseHook
  stringify : StringifyHook

/-- `loadDsf(col, "parse")`: `none` models an absent option, a present list
is validated (a missing name rejects the module list; the hook functions are
total by construction here). -/
def loadDsfParse (col : Option (List PDsf)) : Except PErr (List ParseHook) :=
  match col with
  | none => .ok []
  | some l =>
    if l.any (fun x => x.name = "") then
      .error (.config "extension does not match the DSF interface")
    else .ok (l.map (·.parse))

/-- The options record as the parser reads it at run time.  The declared
interface (`types/parse-options.ts`) and the `rt` facade use the field
`keepWhitespaceAndComments`; the parser itself reads `opt?.keepWsc`, a
property nothing in the repository sets — both fields are modelled so that
this mismatch is expressible. -/
structure ParseOptions where
  keepWhitespaceAndComments : Option Bool := none
  keepWsc : Option Bool := none
  legacyRoot : Option Bool := none
  dsf : Option (List PDsf) := none

/-! ## Objects, arrays, values -/

/-- JS property assignment on an ordered map: an existing key keeps its
position (duplicate keys overwrite their previous value), a new key is
appended. -/
def assocSet {α : Type} (l : List (String × α)) (k : String) (v : α) :
    List (String × α) :=
  if l.any (·.1 = k) then l.map (fun p => if p.1 = k then (k, v) else p)
  else l ++ [(k, v)]

/-- Ordered-map lookup. -/
def assocGet {α : Type} (l : List (String × α)) (k : String) : Option α :=
  (l.find? (·.1 = k)).map (·.2)

/-- `comments.c[key][1] += text`. -/
def assocAppendSnd (l : List (String × (String × String))) (k : String)
    (x : String) : List (String × (String × String)) :=
  l.map (fun p => if p.1 = k then (k, (p.2.1, p.2.2 ++ x)) else p)

/-- `comments.a[comments.a.length-1][1] += text` (parser-pushed entries are
always present; a hole would crash the source and is left unchanged here). -/
def aAppendLast (l : List (Option (String × String))) (x : String) :
    List (Option (String × String)) :=
  match l.getLast? with
  | some (some (b, a2)) => l.dropLast ++ [some (b, a2 ++ x)]
  | _ => l

mutual

/-- `value()`: skip blanks, dispatch on the lookahead character. -/
def pvalue (t : Text) (hooks : List ParseHook) (keep : Bool) :
    Nat → PState → Except PErr (AValue × PState)
  | 0, _ => .error .nofuel
  | f + 1, s => do
    let s ← white t (f + 1) s
    match s.ch with
    | some '{' => pobject t hooks keep false f s
    | some '[' => parray t hooks keep f s
    | some '\'' => do
      let (v, s) ← pstring t (f + 1) true s
      return (.str v, s)
    | some '"' => do
      let (v, s) ← pstring t (f + 1) true s
      return (.str v, s)
    | _ => tfnns t hooks (f + 1) s

/-- `array()` up to the empty-array short-circuit; the member loop is
`parrayLoop`. -/
def parray (t : Text) (hooks : List ParseHook) (keep : Bool) :
    Nat → PState → Except PErr (AValue × PState)
  | 0, _ => .error .nofuel
  | f + 1, s => do
    let cms : Option Comments := if keep then some { a := some [] } else none
    let s := pnext t s
    let cAt := s.pos
    let s ← white t (f + 1) s
    let nextComment : Option String :=
      if cms.isSome then some (jsJoin (getCommentStrs t cAt s.pos true) "\n") else none
    if s.ch = some ']' then
      let s := pnext t s
      let cms := cms.map (fun cm => { cm with e := some (nextComment.getD "", "") })
      return (.arr [] cms, s)
    else parrayLoop t hooks keep f [] cms nextComment s

/-- The member loop of `array()`, with the catch-block hint attachment of the
source applied at each failing call. -/
def parrayLoop (t : Text) (hooks : List ParseHook) (keep : Bool) :
    Nat → List AValue → Option Comments → Option String → PState →
    Except PErr (AValue × PState)
  | 0, _, _, _, _ => .error .nofuel
  | f + 1, acc, cms, nextComment, s =>
    match s.ch with
    | none =>
      .error (attachHint
        (errInfo t "End of input while parsing an array (missing ']')" s.pos)
        (.arr acc none))
    | some _ => do
      let (v, s) ← (pvalue t hooks keep f s).mapError
        (fun e => attachHint e (.arr acc none))
      let acc := acc ++ [v]
      let cAt := s.pos
      let s ← white t (f + 1) s
      let (cAt, s) ←
        if s.ch = some ',' then do
          let s := pnext t s
          let cAt := s.pos
          let s ← white t (f + 1) s
          pure (cAt, s)
        else pure (cAt, s)
      let cnext :=
        match cms with
        | some cm =>
          let c := getCommentStrs t cAt s.pos false
          (some { cm with
             a := some ((cm.a.getD []) ++
               [some (nextComment.getD "", (c.head?).getD "")]) }, c.get? 1)
        | none => ((none : Option Comments), nextComment)
      let cms := cnext.1
      let nextComment := cnext.2
      if s.ch = some ']' then
        let s := pnext t s
        let cms := cms.map (fun cm =>
          match cm.a with
          | some aa =>
            if aa ≠ [] then { cm with a := some (aAppendLast aa (nextComment.getD "")) }
            else cm
          | none => cm)
        return (.arr acc cms, s)
      else
        let s ← white t (f + 1) s
        parrayLoop t hooks keep f acc cms nextComment s

/-- `object(withoutBraces)` up to the empty-object short-circuit; the member
loop is `pobjectLoop`. -/
def pobject (t : Text) (hooks : List ParseHook) (keep : Bool)
    (withoutBraces : Bool) :
    Nat → PState → Except PErr (AValue × PState)
  | 0, _ => .error .nofuel
  | f + 1, s => do
    let cms : Option Comments :=
      if keep then some { c := some [], o := some [] } else none
    let (cAt, s) :=
      if ¬withoutBraces then
        let s := pnext t s
        (s.pos, s)
      else (1, s)
    let s ← white t (f + 1) s
    let nextComment : Option String :=
      if cms.isSome then some (jsJoin (getCommentStrs t cAt s.pos true) "\n") else none
    if s.ch = some '}' ∧ ¬withoutBraces then
      let cms := cms.map (fun cm => { cm with e := some (nextComment.getD "", "") })
      let s := pnext t s
      return (.obj [] cms, s)
    else pobjectLoop t hooks keep withoutBraces f [] cms nextComment s

/-- The member loop of `object(withoutBraces)`. -/
def pobjectLoop (t : Text) (hooks : List ParseHook) (keep : Bool)
    (withoutBraces : Bool) :
    Nat → List (String × AValue) → Option Comments → Option String → PState →
    Except PErr (AValue × PState)
  | 0, _, _, _, _ => .error .nofuel
  | f + 1, acc, cms, nextComment, s =>
    match s.ch with
    | none =>
      if withoutBraces then .ok (.obj acc cms, s)
      else
        .error (attachHint
          (errInfo t "End of input while parsing an object (missing '\x7d')" s.pos)
          (.obj acc none))
    | some _ => do
      let (key, s) ← (keyname t (f + 1) s).mapError
        (fun e => attachHint e (.obj acc none))
      let s ← white t (f + 1) s
      if hcol : s.ch ≠ some ':' then
        .error (attachHint
          (errInfo t ("Expected ':' instead of '" ++ chStr s.ch ++ "'") s.pos)
          (.obj acc none))
      else do
        let s := pnext t s
        let (v, s) ← (pvalue t hooks keep f s).mapError
          (fun e => attachHint e (.obj acc none))
        let acc := assocSet acc key v
        let cAt := s.pos
        let s ← white t (f + 1) s
        let (cAt, s) ←
          if s.ch = some ',' then do
            let s := pnext t s
            let cAt := s.pos
            let s ← white t (f + 1) s
            pure (cAt, s)
          else pure (cAt, s)
        let cnext :=
          match cms with
          | some cm =>
            let c := getCommentStrs t cAt s.pos false
            (some { cm with
               c := some (assocSet (cm.c.getD []) key
                 (nextComment.getD "", (c.head?).getD "")),
               o := some ((cm.o.getD []) ++ [key]) }, c.get? 1)
          | none => ((none : Option Comments), nextComment)
        let cms := cnext.1
        let nextComment := cnext.2
        if s.ch = some '}' ∧ ¬withoutBraces then
          let s := pnext t s
          let cms := cms.map (fun cm =>
            match cm.c with
            | some cc => { cm with c := some (assocAppendSnd cc key (nextComment.getD "")) }
            | none => cm)
          return (.obj acc cms, s)
        else
          let s ← white t (f + 1) s
          pobjectLoop t hooks keep withoutBraces f acc cms nextComment s

end

/-! ## Root handling -/

/-- `checkTrailing(v, c)`: reject leftover input, and with comment
preservation record the root header/footer pair.  A scalar root with
surrounding comments makes the source write `comments.r` on `undefined` — a
`TypeError`. -/
def checkTrailing (t : Text) (keep : Bool) (fuel : Nat) (v : AValue)
    (c : List String) (s : PState) : Except PErr (AValue × PState) := do
  let cAt := s.pos
  let s ← white t fuel s
  if s.ch.isSome then
    .error (errInfo t "Syntax error, found trailing characters" s.pos)
  else if keep then
    let b := jsJoin c "\n"
    let a := jsJoin (getCommentStrs t cAt s.pos false) "\n"
    if a ≠ "" ∨ b ≠ "" then
      match getComment v with
      | some cm => .ok (setCommentStore v (some { cm with r := some (b, a) }), s)
      | none => .error (.typeErr "Cannot set properties of undefined (setting r)")
    else .ok (v, s)
  else .ok (v, s)

/-- The initial cursor (`resetAt()`: position `0`, register a blank). -/
def initState : PState := ⟨0, some ' '⟩

/-- `rootValue()`: strict root (brace, bracket or single value). -/
def rootValue (t : Text) (hooks : List ParseHook) (keep : Bool) (fuel : Nat) :
    Except PErr (AValue × PState) := do
  let s ← white t fuel initState
  let c := if keep then getCommentStrs t 1 s.pos false else []
  match s.ch with
  | some '{' => do
    let (v, s) ← pobject t hooks keep false fuel s
    checkTrailing t keep fuel v c s
  | some '[' => do
    let (v, s) ← parray t hooks keep fuel s
    checkTrailing t keep fuel v c s
  | _ => do
    let (v, s) ← pvalue t hooks keep fuel s
    checkTrailing t keep fuel v c s

/-- `legacyRootValue()`: a braceless object body is attempted first; on
failure the cursor is reset to the start of the input and a single value is
parsed; if both fail the first error is rethrown.  Fuel exhaustion is never
caught (a modelling artifact, not a source behaviour). -/
def legacyRootValue (t : Text) (hooks : List ParseHook) (keep : Bool)
    (fuel : Nat) : Except PErr (AValue × PState) := do
  let s ← white t fuel initState
  let c := if keep then getCommentStrs t 1 s.pos false else []
  match s.ch with
  | some '{' => do
    let (v, s) ← pobject t hooks keep false fuel s
    checkTrailing t keep fuel v c s
  | some '[' => do
    let (v, s) ← parray t hooks keep fuel s
    checkTrailing t keep fuel v c s
  | _ =>
    match (do
      let (v, s1) ← pobject t hooks keep true fuel s
      checkTrailing t keep fuel v c s1) with
    | .ok r => .ok r
    | .error e =>
      if e = .nofuel then .error .nofuel
      else
        match (do
          let (v, s1) ← pvalue t hooks keep fuel initState
          checkTrailing t keep fuel v c s1) with
        | .ok r => .ok r
        | .error e2 => if e2 = .nofuel then .error .nofuel else .error e

/-- `parse(source, opt)` with an explicit fuel budget. -/
def parseCore (text : String) (opt : ParseOptions) (fuel : Nat) :
    Except PErr AValue := do
  let hooks ← loadDsfParse opt.dsf
  let t := text.data
  let keep := opt.keepWsc = some true
  let legacyRoot := opt.legacyRoot ≠ some false
  let r ← if legacyRoot then legacyRootValue t hooks keep fuel
          else rootValue t hooks keep fuel
  return r.1

/-- A fuel budget amply covering every loop and recursion of the parser for
the given input (fuel exhaustion surfaces as `PErr.nofuel`, never as a wrong
result). -/
def parseFuel (text : String) : Nat := 32 * text.length + 256

/-- `parse(source, opt)`. -/
def parse (text : String) (opt : ParseOptions := {}) : Except PErr AValue :=
  parseCore text opt (parseFuel text)


/-! ## Stringifier (hjson-stringify.ts) -/

/-- `' '.repeat(n)` and `indent.repeat(level)`. -/
def strRepeat (s : String) (n : Nat) : String :=
  ⟨(List.replicate n s.data).flatten⟩

/-- A token pair (opening text, closing text).  The source also stores two
length fields on each pair, but they only feed the write-only `wrapLen`
accumulator, which nothing reads; they are omitted. -/
structure Token where
  obj : String × String
  arr : String × String
  key : String × String
  qkey : String × String
  col : String × String
  com : String × String
  str : String × String
  qstr : String × String
  mstr : String × String
  num : String × String
  lit : String × String
  dsf : String × String
  esc : String × String
  uni : String × String
  rem : String × String

/-- `plainToken`. -/
def plainToken : Token where
  obj := ("\x7b", "\x7d")
  arr := ("[", "]")
  key := ("", "")
  qkey := ("\"", "\"")
  col := (":", "")
  com := (",", "")
  str := ("", "")
  qstr := ("\"", "\"")
  mstr := ("\x27\x27\x27", "\x27\x27\x27")
  num := ("", "")
  lit := ("", "")
  dsf := ("", "")
  esc := ("\\", "")
  uni := ("\\u", "")
  rem := ("", "")

/-- `ColorToken` (ANSI-colored token pairs). -/
def colorToken : Token where
  obj := ("\x1b[37m\x7b\x1b[0m", "\x1b[37m\x7d\x1b[0m")
  arr := ("\x1b[37m[\x1b[0m", "\x1b[37m]\x1b[0m")
  key := ("\x1b[33m", "\x1b[0m")
  qkey := ("\x1b[33m\"", "\"\x1b[0m")
  col := ("\x1b[37m:\x1b[0m", "")
  com := ("\x1b[37m,\x1b[0m", "")
  str := ("\x1b[37;1m", "\x1b[0m")
  qstr := ("\x1b[37;1m\"", "\"\x1b[0m")
  mstr := ("\x1b[37;1m\x27\x27\x27", "\x27\x27\x27\x1b[0m")
  num := ("\x1b[36;1m", "\x1b[0m")
  lit := ("\x1b[36m", "\x1b[0m")
  dsf := ("\x1b[37m", "\x1b[0m")
  esc := ("\x1b[31m\\", "\x1b[0m")
  uni := ("\x1b[31m\\u", "\x1b[0m")
  rem := ("\x1b[35m", "\x1b[0m")

/-- `wrap(tk, v)` (the `wrapLen` accumulator of the source is write-only and
omitted). -/
def wrap (tk : String × String) (v : String) : String := tk.1 ++ v ++ tk.2

/-- The `commonRange` character class of the stringifier's regexes. -/
def commonRangeChar (c : Char) : Bool :=
  (0x7f ≤ c.val ∧ c.val ≤ 0x9f) ∨ c.val = 0xad ∨
  (0x600 ≤ c.val ∧ c.val ≤ 0x604) ∨ c.val = 0x70f ∨
  c.val = 0x17b4 ∨ c.val = 0x17b5 ∨ (0x200c ≤ c.val ∧ c.val ≤ 0x200f) ∨
  (0x2028 ≤ c.val ∧ c.val ≤ 0x202f) ∨ (0x2060 ≤ c.val ∧ c.val ≤ 0x206f) ∨
  c.val = 0xfeff ∨ (0xfff0 ≤ c.val ∧ c.val ≤ 0xffff)

/-- A character matched by the `needsEscape` regex. -/
def needsEscapeChar (c : Char) : Bool :=
  c = '\\' ∨ c = '"' ∨ c.val ≤ 0x1f ∨ commonRangeChar c

/-- `needsEscape.test(value)`. -/
def needsEscape (s : String) : Bool := s.data.any needsEscapeChar

/-- `needsQuotes.test(value)`. -/
def needsQuotes (s : String) : Bool :=
  let first : Bool :=
    match s.data.head? with
    | some c =>
      jsIsSpace c ∨ c = '"' ∨ c = '\x27' ∨ c = '#' ∨ c = '\x7b' ∨ c = '\x7d' ∨
        c = '[' ∨ c = ']' ∨ c = ':' ∨ c = ','
    | none => false
  let last : Bool :=
    match s.data.getLast? with
    | some c => jsIsSpace c
    | none => false
  first ∨ s.data.take 2 = ['/', '*'] ∨ s.data.take 2 = ['/', '/'] ∨ last ∨
    s.data.any (fun c => c.val ≤ 0x1f ∨ commonRangeChar c)

/-- One alternative of the `startsWithKeyword` regex. -/
def kwAlt (s : String) (kw : String) : Bool :=
  s.data.take kw.length = kw.data ∧
    (let rest := (s.data.drop kw.length).dropWhile jsIsSpace
     rest = [] ∨ rest.head? = some ',' ∨ rest.head? = some ']' ∨
       rest.head? = some '\x7d' ∨ rest.head? = some '#' ∨
       rest.take 2 = ['/', '/'] ∨ rest.take 2 = ['/', '*'])

/-- `startsWithKeyword.test(value)`. -/
def startsWithKeyword (s : String) : Bool :=
  kwAlt s "true" ∨ kwAlt s "false" ∨ kwAlt s "null"

/-- Whether the text contains a triple single quote. -/
def containsTriple : Text → Bool
  | [] => false
  | c :: rest => (c = '\x27' ∧ rest.take 2 = ['\x27', '\x27']) ∨ containsTriple rest

/-- `needsEscapeML.test(value)` (the control-character range opens one wider
when `multiline = 2`, the `no-tabs` mode). -/
def needsEscapeML (multiline : Nat) (s : String) : Bool :=
  containsTriple s.data ∨ (s.data ≠ [] ∧ s.data.all jsIsSpace) ∨
  s.data.any (fun c =>
    c.val ≤ (if multiline = 2 then 9 else 8) ∨ c.val = 0xb ∨ c.val = 0xc ∨
    (0xe ≤ c.val ∧ c.val ≤ 0x1f) ∨ commonRangeChar c)

/-- The `meta` escape table. -/
def metaEsc (c : Char) : Option Char :=
  if c = Char.ofNat 8 then some 'b'
  else if c = '\t' then some 't'
  else if c = '\n' then some 'n'
  else if c = Char.ofNat 12 then some 'f'
  else if c = '\r' then some 'r'
  else if c = '"' then some '"'
  else if c = '\\' then some '\\'
  else none

/-- A lowercase hexadecimal digit. -/
def hexDigit (n : Nat) : Char :=
  if n < 10 then Char.ofNat (48 + n) else Char.ofNat (87 + n)

/-- `('0000' + code.toString(16)).slice(-4)` for codes below `0x10000`. -/
def toHex4 (n : Nat) : String :=
  ⟨[hexDigit (n / 4096 % 16), hexDigit (n / 256 % 16),
    hexDigit (n / 16 % 16), hexDigit (n % 16)]⟩

/-- `JSON.stringify(value).slice(1, -1)`: the JSON escaping of a string body
(every `Char` is a valid scalar value, so the lone-surrogate clause of the
runtime never fires in the model). -/
def jsonQuoteInner (s : String) : String :=
  ⟨(s.data.map (fun c =>
    if c = '"' then ['\\', '"']
    else if c = '\\' then ['\\', '\\']
    else if c = Char.ofNat 8 then ['\\', 'b']
    else if c = '\t' then ['\\', 't']
    else if c = '\n' then ['\\', 'n']
    else if c = Char.ofNat 12 then ['\\', 'f']
    else if c = '\r' then ['\\', 'r']
    else if c.val < 0x20 then '\\' :: 'u' :: (toHex4 c.toNat).data
    else [c])).flatten⟩

/-- `quoteReplace(string)`: the `needsEscape` characters through the
`esc`/`uni` tokens. -/
def quoteReplace (tk : Token) (s : String) : String :=
  ⟨(s.data.map (fun c =>
    if needsEscapeChar c then
      match metaEsc c with
      | some m => (wrap tk.esc (⟨[m]⟩ : String)).data
      | none => (wrap tk.uni (toHex4 c.toNat)).data
    else [c])).flatten⟩

/-- `isKeyword(value)`. -/
def isKeyword (v : String) : Bool :=
  v = "true" ∨ v = "false" ∨ v = "null" ∨ (tryParseNumber v).isSome

/-- `isChar(c)` of `isSafeString`. -/
def isSafeChar (c : Char) : Bool :=
  ' ' ≤ c ∧ c ≤ '~' ∧ c ≠ '\x27' ∧ c ≠ '"' ∧ c ≠ '\x7b' ∧ c ≠ '\x7d' ∧
    c ≠ '[' ∧ c ≠ ']' ∧ c ≠ ':' ∧ c ≠ ','

/-- The character scan of `isSafeString`. -/
def safeScan : Text → Bool
  | [] => true
  | c :: rest =>
    ¬(c = '#' ∨ (c = '/' ∧ (rest.head? = some '/' ∨ rest.head? = some '*'))) ∧
      isSafeChar c ∧ safeScan rest

/-- `isSafeString(value)`. -/
def isSafeString (v : String) : Bool :=
  v ≠ "" ∧ ¬isKeyword v ∧ safeScan v.data

/-- `String(value)` on the rational model: exact for the integral values the
theorems use (JavaScript's exponential display for magnitudes at or above
1e21 and the shortest-round-trip display of non-integral doubles are outside
the modelled fragment; a non-integral value is rendered as its exact
decimal). -/
def jsNumToString (q : ℚ) : String :=
  if q.den = 1 then toString q.num
  else
    let k := (Nat.log 10 q.den) + 1
    let scaled := q.num * ((10 : ℤ) ^ k) / (q.den : ℤ)
    let digits := toString scaled.natAbs
    let digits := strRepeat "0" (k + 1 - digits.length) ++ digits
    let ip : String := ⟨digits.data.take (digits.length - k)⟩
    let fp : String := ⟨digits.data.drop (digits.length - k)⟩
    let fp : String := ⟨fp.data.reverse.dropWhile (· = '0') |>.reverse⟩
    (if q.num < 0 then "-" else "") ++ ip ++ (if fp = "" then "" else "." ++ fp)

/-- `isInvalidDsfChar(c)`. -/
def isInvalidDsfChar (c : Char) : Bool :=
  c = '\x7b' ∨ c = '\x7d' ∨ c = '[' ∨ c = ']' ∨ c = ',' ∨ c = '"'

/-- `loadDsf(col, "stringify")`: validation of the module records. -/
def loadDsfStringify (col : Option (List PDsf)) :
    Except PErr (List (String × StringifyHook)) :=
  match col with
  | none => .ok []
  | some l =>
    if l.any (fun x => x.name = "") then
      .error (.config "extension does not match the DSF interface")
    else .ok (l.map (fun x => (x.name, x.stringify)))

/-- `runDsf` for stringify hooks: the first defined result wins after
validation (must be non-empty, must not start with a quote, must not contain
a punctuator character other than colon). -/
def runDsfS : List (String × StringifyHook) → AValue → Except PErr (Option String)
  | [], _ => .ok none
  | (nm, h) :: rest, v =>
    match h v with
    | some res =>
      if res = "" ∨ res.data.head? = some '"' ∨ res.data.any isInvalidDsfChar then
        .error (.config ("DSF-" ++ nm ++
          " failed; value may not be empty, start with a quote or contain a punctuator character except colon: " ++ res))
      else .ok (some res)
    | none => runDsfS rest v

/-- Quote style (`min`, `keys`, `strings`, `all`, and the legacy alias
`always`). -/
inductive QuotesMode where
  | min
  | keys
  | strings
  | all
  | always
deriving DecidableEq, Repr

/-- Multiline mode (`std`, `no-tabs`, `off`). -/
inductive MultilineMode where
  | std
  | noTabs
  | off
deriving DecidableEq, Repr

/-- The stringify options record.  `emitRootBraces` is declared in
`types/stringify-options.ts` (documented default `true`); whether the
implementation consults it is the subject of one of the claims. -/
structure StringifyOptions where
  keepWhitespaceAndComments : Option Bool := none
  condense : Option Nat := none
  bracesSameLine : Option Bool := none
  quotes : Option QuotesMode := none
  separator : Option Bool := none
  multiline : Option MultilineMode := none
  eol : Option String := none
  sortProps : Option Bool := none
  dsf : Option (List PDsf) := none
  space : Option (Nat ⊕ String) := none
  colors : Option Bool := none
  emitRootBraces : Option Bool := none

/-- The processed configuration the stringifier body works with. -/
structure SCfg where
  token : Token
  eol : String
  indent : String
  keep : Bool
  bracesSameLine : Bool
  quoteKeys : Bool
  quoteStrings : Bool
  condense : Nat
  multiline : Nat
  separator : String
  sortProps : Bool
  hooks : List (String × StringifyHook)

/-- Option processing, in source order: `quotes: 'always'` is first rewritten
to `'strings'`, then every derived flag is computed.  `globalEol` models the
module-level EOL preference read by `common.getEOL()`. -/
def mkCfg (opt0 : StringifyOptions) (globalEol : String) : Except PErr SCfg := do
  let opt := if opt0.quotes = some .always then { opt0 with quotes := some .strings }
             else opt0
  let token := if opt.colors = some true then colorToken else plainToken
  let eol := opt.eol.getD globalEol
  let indent :=
    match opt.space with
    | some (.inl n) => strRepeat " " n
    | some (.inr str) => str
    | none => "  "
  let keep := opt.keepWhitespaceAndComments.getD false
  let bracesSameLine := opt.bracesSameLine.getD false
  let quoteKeys := opt.quotes = some .all ∨ opt.quotes = some .keys
  let quoteStrings :=
    opt.quotes = some .all ∨ opt.quotes = some .strings ∨ opt.separator = some true
  let condense := opt.condense.getD 0
  let multiline : Nat :=
    if quoteStrings then 0
    else
      match opt.multiline with
      | some .std | none => 1
      | some .noTabs => 2
      | some .off => 0
  let separator := if opt.separator = some true then "," else ""
  let sortProps := opt.sortProps.getD false
  let hooks ← loadDsfStringify opt.dsf
  return ⟨token, eol, indent, keep, bracesSameLine, quoteKeys, quoteStrings,
    condense, multiline, separator, sortProps, hooks⟩

/-- `startsWithNL(str)`. -/
def startsWithNL (s : String) : Bool :=
  s ≠ "" ∧ s.data.get? (if s.data.head? = some '\r' then 1 else 0) = some '\n'

/-- `commentOnThisLine(str)` (`str` may be `undefined`). -/
def commentOnThisLine (s : Option String) : Bool :=
  match s with
  | some str => str ≠ "" ∧ ¬startsWithNL str
  | none => false

/-- `makeComment(str, prefix, trim)`. -/
def makeCommentS (tk : Token) (str : String) (pfx : String) (trim : Bool) :
    String :=
  if str = "" then ""
  else
    let str := forceComment str
    let i := (str.data.takeWhile (· ≤ ' ')).length
    let str := if trim ∧ 0 < i then jsSubstrFrom str.data i else str
    if i < str.length then pfx ++ wrap tk.rem str else str

/-- Property access `.b` on a member comment entry.  In this port the member
entries of the live store are two-element arrays `[before, after]` (built by
the parser and the merger), and arrays carry no `b`/`a` properties — the
accesses `comment.b` and `comment.a` in `visit` always yield `undefined`. -/
def pairPropB (p : String × String) : Option String := none

/-- Property access `.a` on a member comment entry (see `pairPropB`). -/
def pairPropA (p : String × String) : Option String := none

/-- JS string truthiness of a possibly-undefined string. -/
def truthyStr (s : Option String) : Bool :=
  match s with
  | some str => str ≠ ""
  | none => false

/-- `wsc.a[i]` (the parser and the merger always create the `a` array for an
array store; a hole in the sparse array yields `undefined`). -/
def aGet (cm : Comments) (i : Nat) : Option (String × String) :=
  ((cm.a.getD []).get? i).bind id

/-- Stable ascending insertion of one key (JS `Array.prototype.sort` with the
default UTF-16 comparator). -/
def sortInsert (x : String) : List String → List String
  | [] => [x]
  | y :: rest => if x ≤ y then x :: y :: rest else y :: sortInsert x rest

/-- `keys.sort()`. -/
def sortStrings : List String → List String
  | [] => []
  | x :: rest => sortInsert x (sortStrings rest)

/-- `mlString(value, level)` of the stringifier: the triple-quoted block. -/
def mlStringS (cfg : SCfg) (value : String) (level : Nat) : String :=
  let lines := jsSplitOn (jsReplaceAll value '\r' "") '\n'
  let msIndent := strRepeat cfg.indent (level + 1)
  if lines.length = 1 ∧ ¬containsTriple value.data then
    msIndent ++ cfg.token.mstr.1 ++ value ++ cfg.token.mstr.2
  else
    let n := lines.length
    let body := String.join ((List.zip lines (List.range n)).map (fun p =>
      let line := p.1
      let i := p.2
      let isFirstOrLast := i = 0 ∨ i = n - 1
      let isEmpty := jsTrim line = ""
      (if isFirstOrLast ∧ isEmpty then line else msIndent ++ line) ++
        (if i < n - 1 then cfg.eol else "")))
    let result := msIndent ++ cfg.token.mstr.1 ++ cfg.eol ++ body
    let result :=
      if value.data.getLast? ≠ some '\n' then result ++ cfg.eol else result
    result ++ msIndent ++ cfg.token.mstr.2

/-- `quotelessString(value, separator, level, isRootObject, hasComment)`. -/
def quotelessString (cfg : SCfg) (value : String) (separator : String)
    (level : Nat) (isRootObject : Bool) (hasComment : Bool) : String :=
  if cfg.quoteStrings ∨ hasComment ∨ separator ≠ "" ∨ needsQuotes value ∨
      (tryParseNumber value true).isSome ∨ startsWithKeyword value then
    if ¬needsEscapeML cfg.multiline value ∧ ¬isRootObject ∧ cfg.multiline ≠ 0 then
      mlStringS cfg value level
    else if ¬needsEscape value then wrap cfg.token.qstr value
    else wrap cfg.token.qstr (quoteReplace cfg.token value)
  else wrap cfg.token.str value

/-- `quoteKey(key)`. -/
def quoteKey (cfg : SCfg) (key : String) : String :=
  if key = "null" ∧ ¬cfg.quoteKeys then wrap cfg.token.key key
  else if cfg.quoteKeys ∨ ¬isSafeString key then
    wrap cfg.token.qkey (jsonQuoteInner key)
  else wrap cfg.token.key key

/-- `hasSingleProp(value)`. -/
def hasSingleProp (fields : List (String × AValue)) : Bool :=
  fields.length = 1

/-- The member loop of the object branch of `visit`: iterates `keys2`,
skipping the literal key `__COMMENTS` and keys not present on the object.
`rendered` holds the member renderings (computed by `visitObjFields`, which
is hoisted out of this loop so that the mutual recursion stays structural;
`visit` is pure, so rendering a member before the loop is indistinguishable
from rendering it inside the loop as the source does).  The member comment
entry is a `[before, after]` array whose `b`/`a` properties are `undefined`
(see `pairPropB`), so the comment-emission branches never fire. -/
def objAssemble (cfg : SCfg) (separator : String) (level : Nat)
    (wsc : Option Comments) (isComment : Bool)
    (rendered : List (String × String)) : List String → String
  | [] => ""
  | key :: rest =>
    if key = "__COMMENTS" then
      objAssemble cfg separator level wsc isComment rendered rest
    else
      match assocGet rendered key with
      | none => objAssemble cfg separator level wsc isComment rendered rest
      | some vs =>
        let indent2 := strRepeat cfg.indent (level + 1)
        let comment :=
          if isComment then (wsc.bind (fun cm => cm.c)).bind (fun cc => assocGet cc key)
          else none
        let cb := comment.bind pairPropB
        let ca := comment.bind pairPropA
        let beforeLine :=
          if comment.isSome ∧ truthyStr cb then
            indent2 ++
              jsReplaceAll (makeCommentS cfg.token (cb.getD "") "" false) '\n'
                (cfg.eol ++ indent2) ++ cfg.eol
          else ""
        let afterTok :=
          if comment.isSome ∧ truthyStr ca then
            jsReplaceAll
              (makeCommentS cfg.token (ca.getD "")
                (if commentOnThisLine ca then " " else "")
                (commentOnThisLine ca))
              '\n' (cfg.eol ++ indent2)
          else ""
        beforeLine ++ indent2 ++ quoteKey cfg key ++ cfg.token.col.1 ++
          " " ++ vs ++ (if separator ≠ "" then cfg.token.com.1 else "") ++
          afterTok ++ cfg.eol ++
          objAssemble cfg separator level wsc isComment rendered rest

mutual

/-- `visit(value, separator, level, rootObject, hasComment)`: the per-value
formatting decision tree. -/
def visit (cfg : SCfg) (v : AValue) (separator : String) (level : Nat)
    (rootObject : Bool) (hasComment : Bool) : Except PErr String := do
  match (← runDsfS cfg.hooks v) with
  | some dsfValue => return dsfValue
  | none =>
  let commentInfo := if cfg.keep then getComment v else none
  match v with
  | .null => return wrap cfg.token.lit "null"
  | .bool b => return wrap cfg.token.lit (if b then "true" else "false")
  | .str value =>
    if cfg.quoteStrings then
      return wrap cfg.token.qstr (jsonQuoteInner value)
    else if cfg.multiline ≠ 0 ∧ ¬rootObject ∧ value.data.contains '\n' then
      return "\n" ++ mlStringS cfg value level
    else
      return quotelessString cfg value separator level rootObject false
  | .num n =>
    match n with
    | .fin q => return wrap cfg.token.num (jsNumToString q)
    | _ => return wrap cfg.token.lit "null"
  | .arr elems _ =>
    if elems.length = 0 then return "[]"
    else do
      let wsc := commentInfo
      let tryCondense ←
        if 0 < cfg.condense ∧ wsc.isNone ∧ ¬hasComment then do
          let inner ← visitCondenseArr cfg separator elems 0
          let res2 := "[ " ++ inner ++ " ]"
          pure (if res2.length ≤ cfg.condense then some res2 else none)
        else pure none
      match tryCondense with
      | some res2 => return res2
      | none =>
        let indent1 := cfg.token.arr.1
        let indent2 := strRepeat cfg.indent (level + 1)
        let indent3 := strRepeat cfg.indent level
        let body ← visitArrLoop cfg separator level wsc elems.length 0 elems
        let eBlock :=
          match wsc.bind (fun cm => cm.e) with
          | some e =>
            indent2 ++ jsReplaceAll e.1 '\n' (cfg.eol ++ indent2) ++ cfg.eol ++
              (if e.2 ≠ "" then
                indent2 ++ jsReplaceAll e.2 '\n' (cfg.eol ++ indent2) ++ cfg.eol
               else "")
          | none => ""
        return indent1 ++ cfg.eol ++ body ++ eBlock ++ indent3 ++ cfg.token.arr.2
  | .obj fields _ =>
    if fields.length = 0 then return "\x7b\x7d"
    else do
      let keys := fields.map (fun p => p.1)
      let wsc := commentInfo
      let showBraces := rootObject
      let tryCondense ←
        if 0 < cfg.condense ∧ wsc.isNone ∧ ¬hasComment ∧ hasSingleProp fields then
          match fields with
          | (key, fv) :: _ => do
            let inner ← visit cfg fv separator 0 false false
            let res2 := "\x7b" ++ quoteKey cfg key ++ cfg.token.col.1 ++ " " ++
              inner ++ "\x7d"
            pure (if res2.length ≤ cfg.condense then some res2 else none)
          | [] => pure none
        else pure none
      match tryCondense with
      | some res2 => return res2
      | none =>
        let indent1 := if showBraces then cfg.token.obj.1 else ""
        let indent2 := strRepeat cfg.indent (level + 1)
        let indent3 := strRepeat cfg.indent level
        let isComment := wsc.isSome ∧ (wsc.bind (fun cm => cm.c)).isSome
        let opening :=
          if showBraces then
            if cfg.bracesSameLine then indent1 ++ " " else indent1 ++ cfg.eol
          else ""
        let keys2 :=
          match wsc.bind (fun cm => cm.o) with
          | some o => o
          | none => if cfg.sortProps then sortStrings keys else keys
        let rendered ← visitObjFields cfg separator level wsc isComment fields
        let body := objAssemble cfg separator level wsc isComment rendered keys2
        let eBlock :=
          match wsc.bind (fun cm => cm.e) with
          | some e =>
            indent2 ++ jsReplaceAll e.1 '\n' (cfg.eol ++ indent2) ++ cfg.eol ++
              (if e.2 ≠ "" then
                indent2 ++ jsReplaceAll e.2 '\n' (cfg.eol ++ indent2) ++ cfg.eol
               else "")
          | none => ""
        return opening ++ body ++ eBlock ++ indent3 ++ cfg.token.obj.2
  | .undef => return wrap cfg.token.lit "null"

/-- The condensed-array member loop (`res2 += token.com[0] + ' '` between
members). -/
def visitCondenseArr (cfg : SCfg) (separator : String) (elems : List AValue)
    (i : Nat) : Except PErr String := do
  match elems with
  | [] => return ""
  | v :: rest => do
    let s ← visit cfg v separator 0 false false
    let tail ← visitCondenseArr cfg separator rest (i + 1)
    return (if 0 < i then cfg.token.com.1 ++ " " else "") ++ s ++ tail

/-- The element loop of the array branch of `visit`.  The member comment
entry is a `[before, after]` array whose `b`/`a` properties are `undefined`
(see `pairPropB`), so the comment-emission branches never fire; the entry
still feeds the `hasComment` flag computation exactly as in the source. -/
def visitArrLoop (cfg : SCfg) (separator : String) (level : Nat)
    (wsc : Option Comments) (n : Nat) (i : Nat) (elems : List AValue) :
    Except PErr String := do
  match elems with
  | [] => return ""
  | v :: rest => do
    let indent2 := strRepeat cfg.indent (level + 1)
    let comment := wsc.bind (fun cm => aGet cm i)
    let cb := comment.bind pairPropB
    let ca := comment.bind pairPropA
    let beforeLine :=
      if comment.isSome ∧ truthyStr cb then
        indent2 ++
          jsReplaceAll (makeCommentS cfg.token (cb.getD "") "" false) '\n'
            (cfg.eol ++ indent2) ++ cfg.eol
      else ""
    let hc := comment.isSome ∧ (commentOnThisLine ca ∨ truthyStr cb)
    let s ← visit cfg v separator (level + 1) false hc
    let afterTok :=
      if comment.isSome ∧ truthyStr ca then
        jsReplaceAll
          (makeCommentS cfg.token (ca.getD "")
            (if commentOnThisLine ca then " " else "") (commentOnThisLine ca))
          '\n' (cfg.eol ++ indent2)
      else ""
    let tail ← visitArrLoop cfg separator level wsc n (i + 1) rest
    return beforeLine ++ indent2 ++ s ++
      (if i < n - 1 then cfg.token.com.1 else "") ++ afterTok ++ cfg.eol ++ tail

/-- Per-member rendering for the object branch of `visit`: each member value
is visited with the `hasComment` flag its comment entry induces (always
`false` in this port, as the `b`/`a` accesses yield `undefined`). -/
def visitObjFields (cfg : SCfg) (separator : String) (level : Nat)
    (wsc : Option Comments) (isComment : Bool) :
    List (String × AValue) → Except PErr (List (String × String))
  | [] => .ok []
  | (key, v) :: rest => do
    let comment :=
      if isComment then (wsc.bind (fun cm => cm.c)).bind (fun cc => assocGet cc key)
      else none
    let cb := comment.bind pairPropB
    let ca := comment.bind pairPropA
    let hc := comment.isSome ∧ (commentOnThisLine ca ∨ truthyStr cb)
    let vs ← visit cfg v separator (level + 1) false hc
    let tail ← visitObjFields cfg separator level wsc isComment rest
    return (key, vs) :: tail

end

/-- `stringify(value, opt)`; `globalEol` models the module-level EOL
preference (`'\n'` on the platform the claims assume). -/
def stringify (v : AValue) (opt : StringifyOptions := {})
    (globalEol : String := "\n") : Except PErr String := do
  let cfg ← mkCfg opt globalEol
  let comments := if cfg.keep then (getComment v).bind (fun cm => cm.r) else none
  let header :=
    match comments with
    | some (c0, _) => if c0 ≠ "" then c0 ++ "\n" else ""
    | none => ""
  let body ← visit cfg v cfg.separator 0 true false
  let footer :=
    match comments with
    | some (_, c1) => c1
    | none => ""
  return header ++ body ++ footer


/-! ## Comments module (hjson-comments.ts)

The portable comment document.  In this port `saveComment` stores the child
document object itself as the member entry (`res[key] = c || \x7b\x7d`) and grafts
the `b`/`a` texts onto it; the `x` property the merger later reads is never
written by the extractor.  `CEntry` therefore carries both an `x` field
(faithfully `none` in every extractor-built document) and the grafted child
document `sub`. -/

mutual

/-- A node of the portable comment document: an array node (`{a, e?, r?}`)
or an object node (`{s, o, e?, r?}`). -/
inductive CDoc where
  | arrD (a : List (Nat × CEntry)) (e : Option CEntry) (r : Option CEntry)
  | objD (s : List (String × CEntry)) (o : List String) (e : Option CEntry)
      (r : Option CEntry)

/-- A member entry (or an `e`/`r` comment pair, which uses only `b`/`a`). -/
inductive CEntry where
  | mk (b : Option String) (a : Option String) (x : Option CDoc)
      (sub : Option CDoc)

end

/-- The `b` property of an entry. -/
def CEntry.b : CEntry → Option String
  | .mk b _ _ _ => b

/-- The `a` property of an entry. -/
def CEntry.a : CEntry → Option String
  | .mk _ a _ _ => a

/-- The `x` property of an entry (never written by this port's extractor). -/
def CEntry.x : CEntry → Option CDoc
  | .mk _ _ x _ => x

/-- The grafted child document of an entry. -/
def CEntry.sub : CEntry → Option CDoc
  | .mk _ _ _ sub => sub

/-- The `a` property of a document node. -/
def CDoc.aProp : CDoc → Option (List (Nat × CEntry))
  | .arrD a _ _ => some a
  | .objD _ _ _ _ => none

/-- The `s` property of a document node. -/
def CDoc.sProp : CDoc → Option (List (String × CEntry))
  | .objD s _ _ _ => some s
  | .arrD _ _ _ => none

/-- The `o` property of a document node. -/
def CDoc.oProp : CDoc → Option (List String)
  | .objD _ o _ _ => some o
  | .arrD _ _ _ => none

/-- The `e` property of a document node. -/
def CDoc.eProp : CDoc → Option CEntry
  | .arrD _ e _ => e
  | .objD _ _ e _ => e

/-- The `r` property of a document node. -/
def CDoc.rProp : CDoc → Option CEntry
  | .arrD _ _ r => r
  | .objD _ _ _ r => r

/-- `makeComment(b, a)` for the `e`/`r` pairs: fields are set only when the
text is truthy (non-empty); all-empty input yields `undefined`. -/
def makeCommentD (b a : String) : Option CEntry :=
  if b ≠ "" ∨ a ≠ "" then
    some (.mk (if b ≠ "" then some b else none) (if a ≠ "" then some a else none)
      none none)
  else none

/-- `saveComment(res, key, ck, c)`: stores `c || \x7b\x7d` as the entry and grafts
the truthy halves of the live pair `ck` onto it (`ck[2]` of a two-element
array is `undefined`, so `x` is never set).  Returns `none` when nothing is
saved (`!ck && !c`). -/
def saveCommentEntry (ck : Option (String × String)) (c : Option CDoc) :
    Option CEntry :=
  if ck.isNone ∧ c.isNone then none
  else
    some (.mk
      (ck.bind (fun p => if p.1 ≠ "" then some p.1 else none))
      (ck.bind (fun p => if p.2 ≠ "" then some p.2 else none))
      none c)

/-- `comments?.c?.[key]` on a live store. -/
def cGet (cm : Option Comments) (k : String) : Option (String × String) :=
  (cm.bind (fun c => c.c)).bind (fun cc => assocGet cc k)

mutual

/-- `extractComments(value, root)`.  The source also detaches the live store
from the value (`removeComment`); the embedding is pure and leaves the input
untouched, which no reader of the returned document can observe. -/
def extractComments (v : AValue) (root : Bool) : Option CDoc :=
  match v with
  | .arr elems cm₀ =>
    let entries := extractA cm₀ 0 elems
    let hasC : Bool := ¬entries.isEmpty
    let e :=
      if ¬hasC ∧ (cm₀.bind (fun c => c.e)).isSome then
        makeCommentD ((cm₀.bind (fun c => c.e)).getD ("", "")).1
          ((cm₀.bind (fun c => c.e)).getD ("", "")).2
      else none
    let hasC := hasC ∨ (¬hasC ∧ (cm₀.bind (fun c => c.e)).isSome)
    let r :=
      if root ∧ (cm₀.bind (fun c => c.r)).isSome then
        makeCommentD ((cm₀.bind (fun c => c.r)).getD ("", "")).1
          ((cm₀.bind (fun c => c.r)).getD ("", "")).2
      else none
    let hasC := hasC ∨ (root ∧ (cm₀.bind (fun c => c.r)).isSome)
    if hasC then some (.arrD entries e r) else none
  | .obj fields cm₀ =>
    let currentKeys := fields.map (fun p => p.1)
    let keys :=
      match cm₀.bind (fun c => c.o) with
      | some o =>
        ((o ++ currentKeys).foldl (fun ks k =>
          if fields.any (fun p => p.1 = k) ∧ ¬ks.contains k then ks ++ [k]
          else ks) [])
      | none => currentKeys
    let children := extractF fields
    let entries := keys.filterMap (fun k =>
      (saveCommentEntry (cGet cm₀ k) ((assocGet children k).bind id)).map
        (fun e => (k, e)))
    let hasC : Bool := ¬entries.isEmpty
    let e :=
      if ¬hasC ∧ (cm₀.bind (fun c => c.e)).isSome then
        makeCommentD ((cm₀.bind (fun c => c.e)).getD ("", "")).1
          ((cm₀.bind (fun c => c.e)).getD ("", "")).2
      else none
    let hasC := hasC ∨ (¬hasC ∧ (cm₀.bind (fun c => c.e)).isSome)
    let r :=
      if root ∧ (cm₀.bind (fun c => c.r)).isSome then
        makeCommentD ((cm₀.bind (fun c => c.r)).getD ("", "")).1
          ((cm₀.bind (fun c => c.r)).getD ("", "")).2
      else none
    let hasC := hasC ∨ (root ∧ (cm₀.bind (fun c => c.r)).isSome)
    if hasC then some (.objD entries keys e r) else none
  | _ => none

/-- The index loop of the array branch of the extractor. -/
def extractA (cm : Option Comments) (i : Nat) : List AValue →
    List (Nat × CEntry)
  | [] => []
  | v :: rest =>
    match saveCommentEntry (cm.bind (fun c => aGet c i)) (extractComments v false) with
    | some e => (i, e) :: extractA cm (i + 1) rest
    | none => extractA cm (i + 1) rest

/-- Child extraction for every member of an object (hoisted out of the key
loop so the recursion stays structural; extraction is pure). -/
def extractF : List (String × AValue) → List (String × Option CDoc)
  | [] => []
  | (k, v) :: rest => (k, extractComments v false) :: extractF rest

end

/-! ### Merge -/

/-- An orphaned comment: `droppedComment` output (`makeComment(c.b, c.a)`
with the original path attached). -/
structure Dropped where
  b : Option String
  a : Option String
  path : List String
deriving Repr

/-- `droppedComment(path, c)`: when both texts are falsy, `makeComment`
returns `undefined` and the source crashes setting `.path` on it. -/
def droppedComment (path : List String) (c : CEntry) : Except PErr Dropped :=
  if truthyStr c.b ∨ truthyStr c.a then
    .ok ⟨(if truthyStr c.b then c.b else none),
         (if truthyStr c.a then c.a else none), path⟩
  else .error (.typeErr "Cannot set properties of undefined (setting path)")

mutual

/-- `dropAll(comments, dropped, path)`.  For an array node the source reads
`comments.a.length`, which is `undefined` on the map object the extractor
builds, so the index loop never runs and only the `e` comment is collected;
for an object node the key list is walked. -/
def dropAllF : Nat → Option CDoc → List String → Except PErr (List Dropped)
  | 0, _, _ => .error .nofuel
  | _ + 1, none, _ => .ok []
  | f + 1, some (.arrD _ e _), path =>
    match e with
    | some c => do
      let dd ← droppedComment path c
      return [dd]
    | none => .ok []
  | f + 1, some (.objD s o e _), path => do
    let ds ← dropAllKeys f s o path
    match e with
    | some c => do
      let dd ← droppedComment path c
      return ds ++ [dd]
    | none => return ds

/-- The key loop of `dropAll` on an object node. -/
def dropAllKeys : Nat → List (String × CEntry) → List String → List String →
    Except PErr (List Dropped)
  | 0, _, _, _ => .error .nofuel
  | _ + 1, _, [], _ => .ok []
  | f + 1, s, key :: rest, path => do
    let kpath := path ++ [key]
    let part ←
      match assocGet s key with
      | some c => do
        let dd ← droppedComment kpath c
        let sub ← dropAllF f c.x kpath
        pure (dd :: sub)
      | none => pure ([] : List Dropped)
    let tail ← dropAllKeys f s rest path
    return part ++ tail

end

/-- `setComments.a[i] = pair` on a (possibly sparse) array. -/
def sparseSet (l : List (Option (String × String))) (i : Nat)
    (x : String × String) : List (Option (String × String)) :=
  let l := if l.length ≤ i then l ++ List.replicate (i + 1 - l.length) none else l
  l.set i (some x)

/-- The `[c.b, c.a]` pair written into a live store (an `undefined` half
reads back exactly like an empty string everywhere the store is consumed). -/
def entryPair (c : CEntry) : String × String :=
  (c.b.getD "", c.a.getD "")

mutual

/-- `merge(comments, value, dropped, path)`: reattach the document onto the
value's store, collecting orphans.  Only the store is written; the value's
payload is rebuilt unchanged. -/
def mergeRec : Nat → Option CDoc → AValue → List String →
    Except PErr (AValue × List Dropped)
  | 0, _, _, _ => .error .nofuel
  | _ + 1, none, v, _ => .ok (v, [])
  | f + 1, some d, v, path =>
    match v with
    | .arr elems cm₀ => do
      let cm := cm₀.getD {}
      let cm :=
        if path = [] ∧ d.rProp.isSome then
          { cm with r := some (entryPair (d.rProp.getD (.mk none none none none))) }
        else cm
      let cm := { cm with a := some (cm.a.getD []) }
      let (elems, cm, dropped, lastI) ←
        mergeArrEntries f (d.aProp.getD []) elems cm [] (-1) path
      let cm :=
        if lastI = 0 ∧ d.eProp.isSome then
          { cm with e := some (entryPair (d.eProp.getD (.mk none none none none))) }
        else cm
      return (.arr elems (some cm), dropped)
    | .obj fields cm₀ => do
      let cm := cm₀.getD {}
      let cm :=
        if path = [] ∧ d.rProp.isSome then
          { cm with r := some (entryPair (d.rProp.getD (.mk none none none none))) }
        else cm
      let (fields, cm, dropped) ←
        mergeObjKeys f (d.sProp.getD []) (d.oProp.getD []) fields cm [] path
      let cm :=
        if d.eProp.isSome then
          { cm with e := some (entryPair (d.eProp.getD (.mk none none none none))) }
        else cm
      return (.obj fields (some cm), dropped)
    | v => do
      let ds ← dropAllF (f + 1) (some d) path
      return (v, ds)

/-- The `for key in a` loop of the array branch (ascending index order, as
JS iterates integer-like keys); `lastI` tracks the source's loop variable
`i`, which the `e` guard below the loop compares with `0`. -/
def mergeArrEntries : Nat → List (Nat × CEntry) → List AValue → Comments →
    List Dropped → Int → List String →
    Except PErr (List AValue × Comments × List Dropped × Int)
  | 0, _, _, _, _, _, _ => .error .nofuel
  | _ + 1, [], elems, cm, dropped, lastI, _ => .ok (elems, cm, dropped, lastI)
  | f + 1, (i, c) :: rest, elems, cm, dropped, _, path => do
    let kpath := path ++ [toString i]
    let (elems, cm, dropped) ←
      if i < elems.length then do
        let cm := { cm with a := some (sparseSet (cm.a.getD []) i (entryPair c)) }
        let (nv, ds) ← mergeRec f c.x (elems.getD i .undef) kpath
        pure (elems.set i nv, cm, dropped ++ ds)
      else do
        let dd ← droppedComment kpath c
        let ds ← dropAllF f c.x kpath
        pure (elems, cm, dropped ++ [dd] ++ ds)
    mergeArrEntries f rest elems cm dropped (i : Int) path

/-- The `comments.o.forEach` loop of the object branch. -/
def mergeObjKeys : Nat → List (String × CEntry) → List String →
    List (String × AValue) → Comments → List Dropped → List String →
    Except PErr (List (String × AValue) × Comments × List Dropped)
  | 0, _, _, _, _, _, _ => .error .nofuel
  | _ + 1, _, [], fields, cm, dropped, _ => .ok (fields, cm, dropped)
  | f + 1, s, key :: rest, fields, cm, dropped, path => do
    let kpath := path ++ [key]
    let c := assocGet s key
    let (fields, cm, dropped) ←
      if fields.any (fun p => p.1 = key) then do
        let cm := { cm with o := cm.o.map (fun os => os ++ [key]) }
        match c with
        | some c => do
          let cm := { cm with
            c := some (assocSet (cm.c.getD []) key (entryPair c)) }
          let (nv, ds) ← mergeRec f c.x ((assocGet fields key).getD .undef) kpath
          pure (assocSet fields key nv, cm, dropped ++ ds)
        | none => pure (fields, cm, dropped)
      else
        match c with
        | some c => do
          let dd ← droppedComment kpath c
          let ds ← dropAllF f c.x kpath
          pure (fields, cm, dropped ++ [dd] ++ ds)
        | none => pure (fields, cm, dropped)
    mergeObjKeys f s rest fields cm dropped path

end

/-- `rootComment(value, setText, header)`: reads (and, since `setText` is
never `undefined` at any call site of this port, always rewrites) one half of
the root comment pair.  A value without a store makes the source read `.r`
of `undefined`. -/
def rootComment (v : AValue) (setText : Option String) (footer : Bool) :
    Except PErr (String × AValue) :=
  match getComment v with
  | none => .error (.typeErr "Cannot read properties of undefined (reading r)")
  | some cm =>
    let r := cm.r.getD ("", "")
    let r :=
      if footer then (r.1, forceComment (setText.getD ""))
      else (forceComment (setText.getD ""), r.2)
    .ok ((if footer then r.2 else r.1), setCommentStore v (some { cm with r := some r }))

/-- `mergeStr(...)`: trimmed non-empty pieces joined with `"; "`. -/
def mergeStr (args : List (Option String)) : String :=
  args.foldl (fun res c =>
    match c with
    | some str =>
      if str ≠ "" ∧ jsTrim str ≠ "" then
        (if res ≠ "" then res ++ "; " else res) ++ jsTrim str
      else res
    | none => res) ""

/-- One orphan line of the footer:
`("# " + path.join('/') + ": " + mergeStr(c.b, c.a, c.e)).replace("\n", "\\n ") + "\n"`
(a string pattern, so only the first newline is replaced; `c.e` does not
exist on a dropped comment and contributes nothing). -/
def orphanLine (c : Dropped) : String :=
  jsReplaceFirst ("# " ++ jsJoin c.path "/" ++ ": " ++ mergeStr [c.b, c.a, none])
    '\n' "\\n " ++ "\n"

/-- `mergeComments(comments, value)`: merge, then append the orphan footer
when any comment was dropped.  Reading the current footer with
`rootComment(value, null, 1)` first overwrites it with the empty comment —
modelled exactly as written. -/
def mergeComments (d : Option CDoc) (v : AValue) (fuel : Nat) :
    Except PErr AValue :=
  match d with
  | none => .ok v
  | some d => do
    let (v, dropped) ← mergeRec fuel (some d) v []
    if ¬dropped.isEmpty then do
      let (text, v) ← rootComment v (some "") true
      let text := text ++ "\n# Orphaned comments:\n"
      let text := text ++ String.join (dropped.map orphanLine)
      let (_, v) ← rootComment v (some text) true
      return v
    else return v


/-! ## Facade (hjson.ts) -/

/-- `setEndOfLine(eol)`: only `'\n'` and `'\r\n'` are accepted; any other
value leaves the module preference unchanged. -/
def setEndOfLine (current : String) (eol : String) : String :=
  if eol = "\n" ∨ eol = "\r\n" then eol else current

/-- `Hjson.rt.parse(text, options)`: forces `keepWhitespaceAndComments` on
the options it forwards to `parse`. -/
def rtParse (text : String) (opts : ParseOptions := {}) : Except PErr AValue :=
  parse text { opts with keepWhitespaceAndComments := some true }

/-- `Hjson.rt.stringify(value, options)`. -/
def rtStringify (v : AValue) (opts : StringifyOptions := {})
    (globalEol : String := "\n") : Except PErr String :=
  stringify v { opts with keepWhitespaceAndComments := some true } globalEol

/-- `Hjson.comments.extract(value)`. -/
def commentsExtract (v : AValue) : Option CDoc := extractComments v true


/-! ## Claim-level reference definitions

Definitions in this section do not embed source code: they state, in
executable form, measures and predicted behaviours that the claims below are
checked against. -/

mutual

/-- The total comment text of a portable document: the concatenation of every
`b`/`a` text it carries, in document order (the measure used by the
merge-never-drops-comments claim). -/
def totalCDoc : CDoc → String
  | .arrD a e r => totalNE a ++ totalOE e ++ totalOE r
  | .objD s _ e r => totalSE s ++ totalOE e ++ totalOE r

/-- Total comment text over indexed entries. -/
def totalNE : List (Nat × CEntry) → String
  | [] => ""
  | (_, c) :: rest => totalEntry c ++ totalNE rest

/-- Total comment text over keyed entries. -/
def totalSE : List (String × CEntry) → String
  | [] => ""
  | (_, c) :: rest => totalEntry c ++ totalSE rest

/-- Total comment text of one entry (own texts, then both document refs). -/
def totalEntry : CEntry → String
  | .mk b a x sub => b.getD "" ++ a.getD "" ++ totalOD x ++ totalOD sub

/-- Total comment text of an optional document. -/
def totalOD : Option CDoc → String
  | some d => totalCDoc d
  | none => ""

/-- Total comment text of an optional entry. -/
def totalOE : Option CEntry → String
  | some c => totalEntry c
  | none => ""

end

/-- Total comment text of an extraction result. -/
def totalCDocOpt : Option CDoc → String
  | some d => totalCDoc d
  | none => ""

/-- Modelled from the claim (C6): the scan is said to accumulate characters
only until end-of-input, `','`, `'\x7d'`, `']'`, a line break, or a comment
opener. -/
def tfnnsClaimScan : Text → Text
  | [] => []
  | c :: rest =>
    if c = '\r' ∨ c = '\n' ∨ c = ',' ∨ c = '}' ∨ c = ']' ∨ c = '#' ∨
        (c = '/' ∧ (rest.head? = some '/' ∨ rest.head? = some '*')) then []
    else c :: tfnnsClaimScan rest

/-- Modelled from the claim (C6): trim the accumulated token, then resolve it
by literal keyword, then the Number Lexer, then the DSF hooks in order, then
the trimmed raw text; a leading structural punctuator is a syntax error
(`none` here). -/
def tfnnsClaim (text : String) (hooks : List ParseHook) : Option AValue :=
  match text.data.head? with
  | none => none
  | some c =>
    if isPunctuatorChar c then none
    else
      let v := jsTrim (⟨tfnnsClaimScan text.data⟩ : String)
      if v = "true" then some (.bool true)
      else if v = "false" then some (.bool false)
      else if v = "null" then some .null
      else
        match tryParseNumber v with
        | some q => some (.num (.fin q))
        | none =>
          match runDsfP hooks v with
          | some dv => some dv
          | none => some (.str v)

/-- The end-of-line resolution of the quoteless scan (the amended claim C6):
keyword/number first, then trim, then the DSF hooks in order, then the
trimmed text as a string. -/
def tfnnsResolveEol (hooks : List ParseHook) (v : String) : AValue :=
  match tfnnsKeyword v with
  | some w => w
  | none =>
    let v := jsTrim v
    match runDsfP hooks v with
    | some dv => dv
    | none => .str v

/-- The amended claim C6 as a reference scan over the unread remainder: a
line break or end-of-input resolves the token; `','`, `'\x7d'`, `']'`, `'#'`
and `'/'+'/'`/`'/'+'*'` only pause the scan for a keyword/number attempt and
are absorbed when the attempt fails; every other character is absorbed. -/
def tfnnsRef (hooks : List ParseHook) : Text → String → AValue
  | [], v => tfnnsResolveEol hooks v
  | c :: rest, v =>
    if c = '\r' ∨ c = '\n' then tfnnsResolveEol hooks v
    else if c = ',' ∨ c = '}' ∨ c = ']' ∨ c = '#' ∨
        (c = '/' ∧ (rest.head? = some '/' ∨ rest.head? = some '*')) then
      match tfnnsKeyword v with
      | some w => w
      | none => tfnnsRef hooks rest (v.push c)
    else tfnnsRef hooks rest (v.push c)

/-- The start index of the line containing position `p` (the index right
after the nearest `'\n'` strictly before `p`, or `0`). -/
def lineStart (t : Text) : Nat → Nat
  | 0 => 0
  | k + 1 => if charAt t k = some '\n' then k + 1 else lineStart t k

/-- Modelled from the claim (C7): the 0-based column of the error offset
(the last-read character, position `at - 1`). -/
def claimCol (t : Text) (att : Nat) : Nat :=
  (att - 1) - lineStart t (att - 1)

/-- Modelled from the claim (C7): a 20-character context snippet of the input
starting at the error offset. -/
def claimSnippet (t : Text) (att : Nat) : String :=
  jsSubstr t (att - 1) 20

/-- The number of newline characters at positions `1 .. i` (position `0` is
excluded, exactly as the source's line loop never examines it). -/
def nlCount (t : Text) : Nat → Nat
  | 0 => 0
  | i + 1 => nlCount t i + (if charAt t (i + 1) = some '\n' then 1 else 0)


mutual

/-- Object keys are duplicate-free throughout a payload tree — true of every
value handed over by the JS runtime, whose object keys are unique (the
frame-effect claim is read over such values). -/
def uniqKeysJ : JValue → Bool
  | .arr l => uniqKeysJL l
  | .obj l => uniqKeysJF l
  | _ => true

/-- `uniqKeysJ` over array elements. -/
def uniqKeysJL : List JValue → Bool
  | [] => true
  | v :: rest => uniqKeysJ v && uniqKeysJL rest

/-- `uniqKeysJ` over object members: the head key must not recur in the
tail. -/
def uniqKeysJF : List (String × JValue) → Bool
  | [] => true
  | (k, v) :: rest =>
    !(rest.any (fun p => p.1 = k)) && uniqKeysJ v && uniqKeysJF rest

end


/-! ## Verification lemmas -/

/-- With no hooks loaded, the stringify-side DSF runner yields no
replacement. -/
theorem runDsfS_nil (v : AValue) : runDsfS [] v = .ok none := rfl

/-- `Except` bind on a success. -/
theorem okBindE {α β : Type} (a : α) (f : α → Except PErr β) :
    (Except.ok a >>= f) = f a := rfl

/-- `Except` pure. -/
theorem pureE {α : Type} (a : α) : (pure a : Except PErr α) = .ok a := rfl

/-- `Except.map` on a success. -/
theorem okMapE {α β : Type} (a : α) (f : α → β) :
    (Except.ok a : Except PErr α).map f = .ok (f a) := rfl

/-- Unfolding `visit` on `null` (the mutual nested recursion makes the
automatic equation generation intractable; each branch is definitional). -/
theorem visit_null (cfg : SCfg) (sep : String) (level : Nat) (ro hc : Bool) :
    visit cfg .null sep level ro hc = (do
      match (← runDsfS cfg.hooks .null) with
      | some dsfValue => return dsfValue
      | none => return wrap cfg.token.lit "null") := rfl

/-- Unfolding `visit` on a boolean. -/
theorem visit_bool (cfg : SCfg) (sep : String) (level : Nat) (ro hc : Bool)
    (b : Bool) :
    visit cfg (.bool b) sep level ro hc = (do
      match (← runDsfS cfg.hooks (.bool b)) with
      | some dsfValue => return dsfValue
      | none => return wrap cfg.token.lit (if b then "true" else "false")) := rfl

/-- Unfolding `visit` on a number. -/
theorem visit_num (cfg : SCfg) (sep : String) (level : Nat) (ro hc : Bool)
    (n : JNum) :
    visit cfg (.num n) sep level ro hc = (do
      match (← runDsfS cfg.hooks (.num n)) with
      | some dsfValue => return dsfValue
      | none =>
        match n with
        | .fin q => return wrap cfg.token.num (jsNumToString q)
        | _ => return wrap cfg.token.lit "null") := rfl

/-- Unfolding `visit` on `undefined`. -/
theorem visit_undef (cfg : SCfg) (sep : String) (level : Nat) (ro hc : Bool) :
    visit cfg .undef sep level ro hc = (do
      match (← runDsfS cfg.hooks .undef) with
      | some dsfValue => return dsfValue
      | none => return wrap cfg.token.lit "null") := rfl

/-- Unfolding `visit` on a string. -/
theorem visit_str (cfg : SCfg) (sep : String) (level : Nat) (ro hc : Bool)
    (value : String) :
    visit cfg (.str value) sep level ro hc = (do
      match (← runDsfS cfg.hooks (.str value)) with
      | some dsfValue => return dsfValue
      | none =>
        if cfg.quoteStrings then
          return wrap cfg.token.qstr (jsonQuoteInner value)
        else if cfg.multiline ≠ 0 ∧ ¬ro ∧ value.data.contains '\n' then
          return "\n" ++ mlStringS cfg value level
        else
          return quotelessString cfg value sep level ro false) := rfl

/-- Unfolding `visit` on an array. -/
theorem visit_arr (cfg : SCfg) (sep : String) (level : Nat) (ro hc : Bool)
    (elems : List AValue) (cm : Option Comments) :
    visit cfg (.arr elems cm) sep level ro hc = (do
      match (← runDsfS cfg.hooks (.arr elems cm)) with
      | some dsfValue => return dsfValue
      | none =>
        let commentInfo := if cfg.keep then getComment (.arr elems cm) else none
        if elems.length = 0 then return "[]"
        else do
          let wsc := commentInfo
          let tryCondense ←
            if 0 < cfg.condense ∧ wsc.isNone ∧ ¬hc then do
              let inner ← visitCondenseArr cfg sep elems 0
              let res2 := "[ " ++ inner ++ " ]"
              pure (if res2.length ≤ cfg.condense then some res2 else none)
            else pure none
          match tryCondense with
          | some res2 => return res2
          | none =>
            let indent1 := cfg.token.arr.1
            let indent2 := strRepeat cfg.indent (level + 1)
            let indent3 := strRepeat cfg.indent level
            let body ← visitArrLoop cfg sep level wsc elems.length 0 elems
            let eBlock :=
              match wsc.bind (fun cm => cm.e) with
              | some e =>
                indent2 ++ jsReplaceAll e.1 '\n' (cfg.eol ++ indent2) ++ cfg.eol ++
                  (if e.2 ≠ "" then
                    indent2 ++ jsReplaceAll e.2 '\n' (cfg.eol ++ indent2) ++ cfg.eol
                   else "")
              | none => ""
            return indent1 ++ cfg.eol ++ body ++ eBlock ++ indent3 ++
              cfg.token.arr.2) := rfl

/-- Unfolding `visit` on an empty object. -/
theorem visit_obj_nil (cfg : SCfg) (sep : String) (level : Nat) (ro hc : Bool)
    (cm : Option Comments) :
    visit cfg (.obj [] cm) sep level ro hc = (do
      match (← runDsfS cfg.hooks (.obj [] cm)) with
      | some dsfValue => return dsfValue
      | none => return "\x7b\x7d") := rfl

/-- Unfolding `visit` on a non-empty object. -/
theorem visit_obj_cons (cfg : SCfg) (sep : String) (level : Nat) (ro hc : Bool)
    (key : String) (fv : AValue) (rest : List (String × AValue))
    (cm : Option Comments) :
    visit cfg (.obj ((key, fv) :: rest) cm) sep level ro hc = (do
      match (← runDsfS cfg.hooks (.obj ((key, fv) :: rest) cm)) with
      | some dsfValue => return dsfValue
      | none =>
        let commentInfo :=
          if cfg.keep then getComment (.obj ((key, fv) :: rest) cm) else none
        let keys := ((key, fv) :: rest).map (fun p => p.1)
        let wsc := commentInfo
        let showBraces := ro
        let tryCondense ←
          if 0 < cfg.condense ∧ wsc.isNone ∧ ¬hc ∧
              hasSingleProp ((key, fv) :: rest) then do
            let inner ← visit cfg fv sep 0 false false
            let res2 := "\x7b" ++ quoteKey cfg key ++ cfg.token.col.1 ++ " " ++
              inner ++ "\x7d"
            pure (if res2.length ≤ cfg.condense then some res2 else none)
          else pure none
        match tryCondense with
        | some res2 => return res2
        | none =>
          let indent1 := if showBraces then cfg.token.obj.1 else ""
          let indent2 := strRepeat cfg.indent (level + 1)
          let indent3 := strRepeat cfg.indent level
          let isComment := wsc.isSome ∧ (wsc.bind (fun cm => cm.c)).isSome
          let opening :=
            if showBraces then
              if cfg.bracesSameLine then indent1 ++ " " else indent1 ++ cfg.eol
            else ""
          let keys2 :=
            match wsc.bind (fun cm => cm.o) with
            | some o => o
            | none => if cfg.sortProps then sortStrings keys else keys
          let rendered ← visitObjFields cfg sep level wsc isComment
            ((key, fv) :: rest)
          let body := objAssemble cfg sep level wsc isComment rendered keys2
          let eBlock :=
            match wsc.bind (fun cm => cm.e) with
            | some e =>
              indent2 ++ jsReplaceAll e.1 '\n' (cfg.eol ++ indent2) ++ cfg.eol ++
                (if e.2 ≠ "" then
                  indent2 ++ jsReplaceAll e.2 '\n' (cfg.eol ++ indent2) ++ cfg.eol
                 else "")
            | none => ""
          return opening ++ body ++ eBlock ++ indent3 ++
            cfg.token.obj.2) := rfl

/-- Success is preserved through an `Except` bind. -/
theorem okBindTotal {α β : Type} {x : Except PErr α} {f : α → Except PErr β}
    (hx : ∃ u, x = .ok u) (hf : ∀ u, ∃ w, f u = .ok w) :
    ∃ w, (x >>= f) = .ok w := by
  obtain ⟨u, hu⟩ := hx
  rw [hu, okBindE]
  exact hf u

mutual

/-- With no DSF hooks loaded, `visit` always succeeds. -/
theorem visitTotal (cfg : SCfg) (h : cfg.hooks = []) (v : AValue) (sep : String)
    (level : Nat) (ro hc : Bool) : ∃ s, visit cfg v sep level ro hc = .ok s := by
  cases v with
  | null => rw [visit_null, h]; exact ⟨_, rfl⟩
  | bool b => rw [visit_bool, h]; exact ⟨_, rfl⟩
  | num n =>
    rw [visit_num, h]
    cases n with
    | fin q => exact ⟨_, rfl⟩
    | nan => exact ⟨_, rfl⟩
    | inf => exact ⟨_, rfl⟩
    | negInf => exact ⟨_, rfl⟩
  | undef => rw [visit_undef, h]; exact ⟨_, rfl⟩
  | str value =>
    rw [visit_str, h]
    simp only [runDsfS_nil, okBindE]
    split
    · exact ⟨_, rfl⟩
    · split
      · exact ⟨_, rfl⟩
      · exact ⟨_, rfl⟩
  | arr elems cm =>
    rw [visit_arr, h]
    simp only [runDsfS_nil, okBindE, pureE, getComment]
    repeat' split
    all_goals
      first
      | exact ⟨_, rfl⟩
      | exact okBindTotal
          (visitArrLoopTotal cfg h sep level _ elems.length 0 elems)
          (fun body => ⟨_, rfl⟩)
      | (refine okBindTotal (visitCondenseArrTotal cfg h sep elems 0)
           (fun inner => ?_)
         repeat' split
         all_goals
           first
           | exact ⟨_, rfl⟩
           | exact okBindTotal
               (visitArrLoopTotal cfg h sep level _ elems.length 0 elems)
               (fun body => ⟨_, rfl⟩))
  | obj fields cm =>
    cases fields with
    | nil => rw [visit_obj_nil, h]; exact ⟨_, rfl⟩
    | cons kv rest =>
      obtain ⟨key, fv⟩ := kv
      rw [visit_obj_cons, h]
      simp only [runDsfS_nil, okBindE, pureE, getComment]
      repeat' split
      all_goals
        first
        | exact ⟨_, rfl⟩
        | exact okBindTotal
            (visitObjFieldsTotal cfg h sep level _ _ ((key, fv) :: rest))
            (fun rendered => ⟨_, rfl⟩)
        | (refine okBindTotal (visitTotal cfg h fv sep 0 false false)
             (fun inner => ?_)
           repeat' split
           all_goals
             first
             | exact ⟨_, rfl⟩
             | exact okBindTotal
                 (visitObjFieldsTotal cfg h sep level _ _ ((key, fv) :: rest))
                 (fun rendered => ⟨_, rfl⟩))

/-- With no DSF hooks loaded, the condensed-array loop always succeeds. -/
theorem visitCondenseArrTotal (cfg : SCfg) (h : cfg.hooks = []) (sep : String)
    (elems : List AValue) (i : Nat) :
    ∃ s, visitCondenseArr cfg sep elems i = .ok s := by
  cases elems with
  | nil => exact ⟨_, rfl⟩
  | cons v rest =>
    rw [visitCondenseArr.eq_def]
    refine okBindTotal (visitTotal cfg h v sep 0 false false) (fun s => ?_)
    exact okBindTotal (visitCondenseArrTotal cfg h sep rest (i + 1))
      (fun tail => ⟨_, rfl⟩)

/-- With no DSF hooks loaded, the array-member loop always succeeds. -/
theorem visitArrLoopTotal (cfg : SCfg) (h : cfg.hooks = []) (sep : String)
    (level : Nat) (wsc : Option Comments) (n i : Nat) (elems : List AValue) :
    ∃ s, visitArrLoop cfg sep level wsc n i elems = .ok s := by
  cases elems with
  | nil => exact ⟨_, rfl⟩
  | cons v rest =>
    rw [visitArrLoop.eq_def]
    refine okBindTotal (visitTotal cfg h v sep (level + 1) false _) (fun s => ?_)
    exact okBindTotal (visitArrLoopTotal cfg h sep level wsc n (i + 1) rest)
      (fun tail => ⟨_, rfl⟩)

/-- With no DSF hooks loaded, the object-member renderer always succeeds. -/
theorem visitObjFieldsTotal (cfg : SCfg) (h : cfg.hooks = []) (sep : String)
    (level : Nat) (wsc : Option Comments) (isC : Bool)
    (fields : List (String × AValue)) :
    ∃ s, visitObjFields cfg sep level wsc isC fields = .ok s := by
  cases fields with
  | nil => exact ⟨_, rfl⟩
  | cons kv rest =>
    obtain ⟨key, v⟩ := kv
    rw [visitObjFields.eq_def]
    refine okBindTotal (visitTotal cfg h v sep (level + 1) false _) (fun s => ?_)
    exact okBindTotal (visitObjFieldsTotal cfg h sep level wsc isC rest)
      (fun tail => ⟨_, rfl⟩)

end

/-- `mkCfg` succeeds whenever no DSF extensions are passed, yields no hooks,
and picks the token set from `colors` alone. -/
theorem mkCfgNoDsf (opt : StringifyOptions) (gEol : String)
    (hdsf : opt.dsf = none) :
    ∃ cfg, mkCfg opt gEol = .ok cfg ∧ cfg.hooks = [] ∧
      cfg.token = (if opt.colors = some true then colorToken else plainToken) := by
  cases opt with
  | mk kw cnd bsl q sp ml eo srt dsf spc col erb =>
    subst hdsf
    by_cases hq : q = some QuotesMode.always <;>
      · simp only [mkCfg, hq, loadDsfStringify, okBindE, pureE, if_true, if_false,
          reduceIte]
        exact ⟨_, rfl, rfl, rfl⟩

/-- `stringify` succeeds on every value whenever no DSF extensions are
passed. -/
theorem stringifyTotal (opt : StringifyOptions) (gEol : String)
    (hdsf : opt.dsf = none) (v : AValue) :
    ∃ s, stringify v opt gEol = .ok s := by
  obtain ⟨cfg, hcfg, hhooks, _⟩ := mkCfgNoDsf opt gEol hdsf
  obtain ⟨body, hbody⟩ := visitTotal cfg hhooks v cfg.separator 0 true false
  rw [stringify.eq_def, hcfg]
  simp only [okBindE, hbody]
  exact ⟨_, rfl⟩

/-- `mkCfg` never reads the declared `emitRootBraces` option. -/
theorem mkCfg_emitRootBraces (opt : StringifyOptions) (b : Option Bool)
    (gEol : String) :
    mkCfg { opt with emitRootBraces := b } gEol = mkCfg opt gEol := by
  cases opt with
  | mk kw cnd bsl q sp ml eo srt dsf spc col erb =>
    by_cases hq : q = some QuotesMode.always <;>
      simp only [mkCfg, hq, reduceIte]

/-- `mkCfg` normalises `quotes: always` to `quotes: strings` before any other
option is read. -/
theorem mkCfg_always_strings (opt : StringifyOptions) (gEol : String) :
    mkCfg { opt with quotes := some .always } gEol =
      mkCfg { opt with quotes := some .strings } gEol := by
  cases opt
  rfl

/-- `plain` on an object node. -/
theorem plain_obj (l : List (String × JValue)) :
    plain (.obj l) = .obj (plainF l) none := rfl

/-- `plain` keeps a non-empty member list non-empty. -/
theorem plainF_ne_nil (fields : List (String × JValue)) (h : fields ≠ []) :
    plainF fields ≠ [] := by
  cases fields with
  | nil => exact absurd rfl h
  | cons kv rest => cases kv; simp [plainF]

theorem visitRootObjBraces (cfg : SCfg) (h : cfg.hooks = [])
    (ht : cfg.token = plainToken) (sep : String)
    (fields : List (String × AValue)) (hne : fields ≠ []) :
    ∃ mid, visit cfg (.obj fields none) sep 0 true false =
      .ok ("\x7b" ++ mid ++ "\x7d") := by
  cases fields with
  | nil => exact absurd rfl hne
  | cons kv rest =>
    obtain ⟨key, fv⟩ := kv
    obtain ⟨si, hi⟩ := visitTotal cfg h fv sep 0 false false
    obtain ⟨sr, hr⟩ := visitObjFieldsTotal cfg h sep 0 none false
      ((key, fv) :: rest)
    rw [visit_obj_cons, h]
    simp only [runDsfS_nil, okBindE, pureE, getComment, ite_self, ht,
      Option.isSome_none, Option.none_bind, Bool.false_eq_true, false_and,
      and_false, decide_False, plainToken, hi, hr, if_true]
    split
    · by_cases hcl :
        ("\x7b" ++ quoteKey cfg key ++ ":" ++ " " ++ si ++ "\x7d").length ≤
          cfg.condense
      · rw [if_pos hcl]
        exact ⟨quoteKey cfg key ++ ":" ++ " " ++ si,
          by simp only [String.append_assoc]⟩
      · rw [if_neg hcl]
        simp only [String.append_assoc]
        split
        · exact ⟨" " ++ (objAssemble cfg sep 0 none false sr
            (if cfg.sortProps = true then
              sortStrings (List.map (fun p => p.1) ((key, fv) :: rest))
            else List.map (fun p => p.1) ((key, fv) :: rest)) ++ ("" ++
            strRepeat cfg.indent 0)), by simp only [String.append_assoc]⟩
        · exact ⟨cfg.eol ++ (objAssemble cfg sep 0 none false sr
            (if cfg.sortProps = true then
              sortStrings (List.map (fun p => p.1) ((key, fv) :: rest))
            else List.map (fun p => p.1) ((key, fv) :: rest)) ++ ("" ++
            strRepeat cfg.indent 0)), by simp only [String.append_assoc]⟩
    · simp only [String.append_assoc]
      split
      · exact ⟨" " ++ (objAssemble cfg sep 0 none false sr
          (if cfg.sortProps = true then
            sortStrings (List.map (fun p => p.1) ((key, fv) :: rest))
          else List.map (fun p => p.1) ((key, fv) :: rest)) ++ ("" ++
          strRepeat cfg.indent 0)), by simp only [String.append_assoc]⟩
      · exact ⟨cfg.eol ++ (objAssemble cfg sep 0 none false sr
          (if cfg.sortProps = true then
            sortStrings (List.map (fun p => p.1) ((key, fv) :: rest))
          else List.map (fun p => p.1) ((key, fv) :: rest)) ++ ("" ++
          strRepeat cfg.indent 0)), by simp only [String.append_assoc]⟩

/-! ## Claims -/

/-- **C1** (round trip `parse ∘ stringify = id`): refuted by the code.
`stringify` emits a nested (non-root) object without its opening brace —
`showBraces` is the bare `rootObject` flag, true only at the root — yet the
closing brace is appended unconditionally, so `\x7b"a": \x7b"b": 1\x7d\x7d` stringifies
to unbalanced text that `parse` rejects with a trailing-characters error
instead of recovering the value. -/
theorem c1_roundtrip_nested_object_failure :
    stringify (plain (.obj [("a", .obj [("b", .num (.fin 1))])])) =
      .ok "\x7b\n  a:     b: 1\n  \x7d\n\x7d" ∧
    parse "\x7b\n  a:     b: 1\n  \x7d\n\x7d" =
      .error (.syn "Syntax error, found trailing characters" 4 1 "\x7d" "") :=
  ⟨rfl, rfl⟩

/-- **C2** (merge never silently destroys comments): refuted by the code.
The portable document extracted from `"[\n# end\n]"` carries the array's end
comment `# end`; merging it back onto the unchanged parsed value drops the
comment entirely — the array branch of `merge` reattaches `e` only when the
last member index `i` equals `0`, and with no member comments `i` stays `-1`
— so it is neither reattached nor orphaned, and extraction after the merge
returns an empty document: the total comment text shrinks from `"# end"` to
`""` with zero deletions. -/
theorem c2_merge_drops_array_end_comment :
    (do
      let v1 ← parseCore "[\n# end\n]" { keepWsc := some true } 600
      let v2 ← parse "[\n# end\n]"
      let d := commentsExtract v1
      let merged ← mergeComments d v2 200
      (return (d, commentsExtract merged) :
        Except PErr (Option CDoc × Option CDoc))) =
      .ok (some (.arrD [] (some (.mk (some "# end") none none none)) none),
           none) ∧
    totalCDocOpt
      (some (.arrD [] (some (.mk (some "# end") none none none)) none)) =
      "# end" ∧
    totalCDocOpt none = "" :=
  ⟨rfl, rfl, rfl⟩

/-- **C3** (the preserve-comments option attaches the store): refuted by the
code.  The parser reads `opt?.keepWsc`, but the declared option and the `rt`
entry point set `keepWhitespaceAndComments`, so the round-trip entry point
returns a value with no annotation store and extraction is empty even though
the input contains a comment; passing the undeclared `keepWsc` property (the
name the parser actually consults) does attach the store. -/
theorem c3_preserve_comments_never_attached :
    rtParse "\x7b\n# note\na: 1\n\x7d" = .ok (.obj [("a", .num (.fin 1))] none) ∧
    (rtParse "\x7b\n# note\na: 1\n\x7d").map commentsExtract = .ok none ∧
    parseCore "\x7b\n# note\na: 1\n\x7d" { keepWsc := some true } 600 =
      .ok (.obj [("a", .num (.fin 1))]
        (some { c := some [("a", ("# note", ""))], o := some ["a"] })) :=
  ⟨rfl, rfl, rfl⟩

/-- **C6** counterexample: the claim says the quoteless scan stops at `','`
and resolves the token accumulated so far, which on input `a,b` would give
the string `"a"`; the source's scan only pauses at `','` for a
keyword/number attempt and otherwise absorbs it, producing `"a,b"`. -/
theorem c6_tfnns_comma_counterexample :
    (tfnns "a,b".data [] 64 ⟨1, some 'a'⟩).map (fun r => r.1) =
      .ok (.str "a,b") ∧
    tfnnsClaim "a,b" [] = some (.str "a") ∧ "a,b" ≠ "a" :=
  ⟨rfl, rfl, by decide⟩

/-- **C7** counterexample: for the parse failure of `"x\nabc,"` (offending
character `','` at offset 5, cursor `at = 6`) the raised error carries
column `4` and snippet `"abc,"`, whereas the claim's 0-based column is `3`
and its snippet, starting at the error offset, is `","`. -/
theorem c7_error_snippet_counterexample :
    parse "x\nabc," =
      .error (.syn "Found ',' where a key name was expected (check your syntax or use quotes if the key name includes \x7b\x7d[],: or whitespace)" 2 4 "abc," "") ∧
    claimCol "x\nabc,".data 6 = 3 ∧
    claimSnippet "x\nabc,".data 6 = "," ∧
    (4 : Nat) ≠ 3 ∧ "abc," ≠ "," :=
  ⟨rfl, rfl, rfl, by decide, by decide⟩

/-- **C4** (stringify is total; `undefined` and non-finite numbers degrade to
the literal `null`): confirmed.  With no DSF extensions loaded (the `dsf`
option unset, its default), `stringify` succeeds on every value; at every
nesting level `visit` renders `undefined`, `NaN`, `Infinity` and `-Infinity`
as the `null` literal token; and with default (non-colored) tokens the
rendered text for such a root value is exactly `"null"`. -/
theorem c4_stringify_total_null_degradation :
    (∀ (opt : StringifyOptions) (gEol : String), opt.dsf = none →
      ∀ v : AValue, ∃ s, stringify v opt gEol = .ok s) ∧
    (∀ cfg : SCfg, cfg.hooks = [] →
      ∀ (sep : String) (level : Nat) (ro hc : Bool),
      visit cfg .undef sep level ro hc = .ok (wrap cfg.token.lit "null") ∧
      visit cfg (.num .nan) sep level ro hc = .ok (wrap cfg.token.lit "null") ∧
      visit cfg (.num .inf) sep level ro hc = .ok (wrap cfg.token.lit "null") ∧
      visit cfg (.num .negInf) sep level ro hc =
        .ok (wrap cfg.token.lit "null")) ∧
    (∀ (opt : StringifyOptions) (gEol : String), opt.dsf = none →
      opt.colors ≠ some true →
      stringify .undef opt gEol = .ok "null" ∧
      stringify (.num .nan) opt gEol = .ok "null" ∧
      stringify (.num .inf) opt gEol = .ok "null" ∧
      stringify (.num .negInf) opt gEol = .ok "null") := by
  refine ⟨fun opt gEol hdsf v => stringifyTotal opt gEol hdsf v, ?_, ?_⟩
  · intro cfg h sep level ro hc
    refine ⟨?_, ?_, ?_, ?_⟩
    · rw [visit_undef, h]; rfl
    · rw [visit_num, h]; rfl
    · rw [visit_num, h]; rfl
    · rw [visit_num, h]; rfl
  · intro opt gEol hdsf hcol
    obtain ⟨cfg, hcfg, hhooks, htok⟩ := mkCfgNoDsf opt gEol hdsf
    rw [if_neg hcol] at htok
    have hu : visit cfg .undef cfg.separator 0 true false =
        .ok (wrap cfg.token.lit "null") := by rw [visit_undef, hhooks]; rfl
    have hn : ∀ n, n = JNum.nan ∨ n = JNum.inf ∨ n = JNum.negInf →
        visit cfg (.num n) cfg.separator 0 true false =
          .ok (wrap cfg.token.lit "null") := by
      rintro n (rfl | rfl | rfl) <;> (rw [visit_num, hhooks]; rfl)
    refine ⟨?_, ?_, ?_, ?_⟩
    · rw [stringify.eq_def, hcfg]
      simp only [okBindE, getComment, Option.none_bind, ite_self, hu, htok]
      rfl
    · rw [stringify.eq_def, hcfg]
      simp only [okBindE, getComment, Option.none_bind, ite_self,
        hn JNum.nan (Or.inl rfl), htok]
      rfl
    · rw [stringify.eq_def, hcfg]
      simp only [okBindE, getComment, Option.none_bind, ite_self,
        hn JNum.inf (Or.inr (Or.inl rfl)), htok]
      rfl
    · rw [stringify.eq_def, hcfg]
      simp only [okBindE, getComment, Option.none_bind, ite_self,
        hn JNum.negInf (Or.inr (Or.inr rfl)), htok]
      rfl

/-- Witness for C4: concrete default options. -/
theorem c4_stringify_total_null_degradation_witness :
    stringify .undef {} "\n" = .ok "null" ∧
    (∃ s, stringify (.bool true) {} "\n" = .ok s) :=
  ⟨(c4_stringify_total_null_degradation.2.2 {} "\n" rfl (by decide)).1,
   c4_stringify_total_null_degradation.1 {} "\n" rfl (.bool true)⟩

/-- **C9** (`quotes: 'always'` is an alias of `quotes: 'strings'`): confirmed.
For every value, every other option, and every module EOL preference, the two
settings produce identical results — option processing rewrites `always` to
`strings` before any flag is derived. -/
theorem c9_quotes_always_is_strings :
    ∀ (v : AValue) (opt : StringifyOptions) (gEol : String),
      stringify v { opt with quotes := some .always } gEol =
        stringify v { opt with quotes := some .strings } gEol := by
  intro v opt gEol
  rw [stringify.eq_def, stringify.eq_def, mkCfg_always_strings]

/-- **C10** (the root braces of a non-empty object are always emitted and
`emitRootBraces` is dead): confirmed.  Stringifying under any
`emitRootBraces` value yields the very same text as leaving the option unset,
for every value and every other option; and with the default token set (no
colors, no DSF extensions) the output for a non-empty object root is always
of the form `\x7b…\x7d`. -/
theorem c10_emit_root_braces_ignored :
    (∀ (v : AValue) (opt : StringifyOptions) (b : Option Bool) (gEol : String),
      stringify v { opt with emitRootBraces := b } gEol =
        stringify v opt gEol) ∧
    (∀ (fields : List (String × JValue)) (opt : StringifyOptions)
        (gEol : String), fields ≠ [] → opt.colors ≠ some true →
      opt.dsf = none →
      ∃ mid, stringify (plain (.obj fields)) opt gEol =
        .ok ("\x7b" ++ mid ++ "\x7d")) := by
  constructor
  · intro v opt b gEol
    rw [stringify.eq_def, stringify.eq_def, mkCfg_emitRootBraces]
  · intro fields opt gEol hne hcol hdsf
    obtain ⟨cfg, hcfg, hhooks, htok⟩ := mkCfgNoDsf opt gEol hdsf
    rw [if_neg hcol] at htok
    obtain ⟨mid, hmid⟩ := visitRootObjBraces cfg hhooks htok cfg.separator
      (plainF fields) (plainF_ne_nil fields hne)
    refine ⟨mid, ?_⟩
    rw [stringify.eq_def, hcfg]
    simp only [okBindE, plain_obj, getComment, Option.none_bind, ite_self, hmid]
    simp only [String.empty_append, String.append_empty]
    rfl

/-- Witness for C10: a one-member object under explicit `emitRootBraces`
values. -/
theorem c10_emit_root_braces_ignored_witness :
    stringify (plain (.obj [("a", .num (.fin 1))]))
        { ({} : StringifyOptions) with emitRootBraces := some false } "\n" =
      stringify (plain (.obj [("a", .num (.fin 1))])) {} "\n" ∧
    (∃ mid, stringify (plain (.obj [("a", .num (.fin 1))])) {} "\n" =
      .ok ("\x7b" ++ mid ++ "\x7d")) :=
  ⟨c10_emit_root_braces_ignored.1 (plain (.obj [("a", .num (.fin 1))])) {}
      (some false) "\n",
   c10_emit_root_braces_ignored.2 [("a", .num (.fin 1))] {} "\n"
      (List.cons_ne_nil _ _) (by decide) rfl⟩

/-- **C5** (legacy root fallback): confirmed.  When the first
non-whitespace/comment character is neither a brace nor a bracket, the parser
first attempts a braceless object body; a success is returned as is; on a
genuine parse error (fuel exhaustion of this model aside) the input is
reparsed as a single value from the reset cursor (`initState`, the very start
of the input), a success of that second attempt is returned, and if the
second attempt also fails with a genuine parse error the error surfaced is
the first attempt's. -/
theorem c5_legacy_root_fallback (t : Text) (hooks : List ParseHook)
    (keep : Bool) (fuel : Nat) (s : PState)
    (hw : white t fuel initState = .ok s)
    (hbrace : s.ch ≠ some '\x7b') (hbracket : s.ch ≠ some '[') :
    (∀ r, (do
        let (v, s1) ← pobject t hooks keep true fuel s
        checkTrailing t keep fuel v
          (if keep then getCommentStrs t 1 s.pos false else []) s1) = .ok r →
      legacyRootValue t hooks keep fuel = .ok r) ∧
    (∀ e, (do
        let (v, s1) ← pobject t hooks keep true fuel s
        checkTrailing t keep fuel v
          (if keep then getCommentStrs t 1 s.pos false else []) s1) =
          .error e →
      e ≠ .nofuel →
      (∀ r, (do
          let (v, s1) ← pvalue t hooks keep fuel initState
          checkTrailing t keep fuel v
            (if keep then getCommentStrs t 1 s.pos false else []) s1) =
            .ok r →
        legacyRootValue t hooks keep fuel = .ok r) ∧
      (∀ e2, (do
          let (v, s1) ← pvalue t hooks keep fuel initState
          checkTrailing t keep fuel v
            (if keep then getCommentStrs t 1 s.pos false else []) s1) =
            .error e2 →
        e2 ≠ .nofuel →
        legacyRootValue t hooks keep fuel = .error e)) := by
  have hbody : legacyRootValue t hooks keep fuel =
      match (do
          let (v, s1) ← pobject t hooks keep true fuel s
          checkTrailing t keep fuel v
            (if keep then getCommentStrs t 1 s.pos false else []) s1 :
          Except PErr (AValue × PState)) with
      | .ok r => .ok r
      | .error e =>
        if e = .nofuel then .error .nofuel
        else
          match (do
              let (v, s1) ← pvalue t hooks keep fuel initState
              checkTrailing t keep fuel v
                (if keep then getCommentStrs t 1 s.pos false else []) s1 :
              Except PErr (AValue × PState)) with
          | .ok r => .ok r
          | .error e2 =>
            if e2 = .nofuel then .error .nofuel else .error e := by
    rw [legacyRootValue.eq_def, hw]
    simp only [okBindE]
  refine ⟨?_, ?_⟩
  · intro r h1
    rw [hbody, h1]
  · intro e h1 hne
    refine ⟨?_, ?_⟩
    · intro r h2
      rw [hbody, h1]
      simp only [if_neg hne, h2]
    · intro e2 h2 hne2
      rw [hbody, h1]
      simp only [if_neg hne, h2, if_neg hne2]

/-- Witness for C5: the input `","` — the braceless-object attempt fails on
the leading comma, the single-value reparse from the reset cursor fails on
the same punctuator, and the error surfaced is the first attempt's. -/
theorem c5_legacy_root_fallback_witness :
    legacyRootValue ",".data [] false 100 =
      .error (.syn "Found ',' where a key name was expected (check your syntax or use quotes if the key name includes \x7b\x7d[],: or whitespace)" 1 0 "" "") :=
  ((c5_legacy_root_fallback ",".data [] false 100 ⟨1, some ','⟩ rfl
      (by decide) (by decide)).2
    (.syn "Found ',' where a key name was expected (check your syntax or use quotes if the key name includes \x7b\x7d[],: or whitespace)" 1 0 "" "")
    rfl (by decide)).2
    (.syn "Found a punctuator character ',' when expecting a quoteless string (check your syntax)" 1 0 "" "")
    rfl (by decide)

/-- The column loop of `error(m)` walks back to the nearest newline at or
before its start position (or to position `0`), adding the distance walked to
the incoming column. -/
theorem errColLoopSpec (t : Text) :
    ∀ i col : Nat, ∃ i₀, errColLoop t i col = (i₀, col + (i - i₀)) ∧ i₀ ≤ i ∧
      (i₀ = 0 ∨ charAt t i₀ = some '\n') ∧
      ∀ j, i₀ < j → j ≤ i → charAt t j ≠ some '\n' := by
  intro i
  induction i with
  | zero =>
    intro col
    refine ⟨0, rfl, Nat.le_refl 0, Or.inl rfl, ?_⟩
    intro j hj hj2
    omega
  | succ i ih =>
    intro col
    have hstep : errColLoop t (i + 1) col =
        if charAt t (i + 1) ≠ some '\n' then errColLoop t i (col + 1)
        else (i + 1, col) := rfl
    by_cases hnl : charAt t (i + 1) = some '\n'
    · refine ⟨i + 1, ?_, Nat.le_refl _, Or.inr hnl, ?_⟩
      · rw [hstep, if_neg (by simp [hnl])]
        have : col + (i + 1 - (i + 1)) = col := by omega
        rw [this]
      · intro j hj hj2
        omega
    · obtain ⟨i₀, heq, hle, hond, hrange⟩ := ih (col + 1)
      have harith : col + 1 + (i - i₀) = col + (i + 1 - i₀) := by omega
      refine ⟨i₀, ?_, Nat.le_succ_of_le hle, hond, ?_⟩
      · rw [hstep, if_pos (by simp [hnl]), heq, harith]
      · intro j hj hj2
        rcases Nat.eq_or_lt_of_le hj2 with h | h
        · intro hc
          exact hnl (h ▸ hc)
        · exact hrange j hj (by omega)

/-- The line loop of `error(m)` counts one plus the newlines at positions
`1 .. i`. -/
theorem errLineLoop_eq (t : Text) : ∀ i, errLineLoop t i = 1 + nlCount t i := by
  intro i
  induction i with
  | zero => rfl
  | succ i ih =>
    have hL : errLineLoop t (i + 1) =
        (if charAt t (i + 1) = some '\n' then 1 else 0) + errLineLoop t i := rfl
    have hN : nlCount t (i + 1) =
        nlCount t i + (if charAt t (i + 1) = some '\n' then 1 else 0) := rfl
    rw [hL, hN, ih]
    by_cases h : charAt t (i + 1) = some '\n'
    · rw [if_pos h]
      omega
    · rw [if_neg h]
      omega

/-- **C7** amended: for a failure raised at cursor `at ≥ 1` the error carries
the line `1 + (newlines at positions 1 .. i₀)` where `i₀` is the nearest
newline position at or before the last-read character `at - 1` (or `0` on the
first line), the column `(at - 1) - i₀` (0-based on the first line, 1-based
afterwards), and a 20-character snippet starting at `i₀ + 1` — the start of
the offending line, not the error offset. -/
theorem c7_error_location_amended (t : Text) (m : String) (att : Nat)
    (hatt : 1 ≤ att) :
    ∃ i₀, i₀ ≤ att - 1 ∧ (i₀ = 0 ∨ charAt t i₀ = some '\n') ∧
      (∀ j, i₀ < j → j ≤ att - 1 → charAt t j ≠ some '\n') ∧
      errInfo t m att =
        .syn m (1 + nlCount t i₀) ((att - 1) - i₀)
          (jsSubstr t (i₀ + 1) 20) "" := by
  obtain ⟨i₀, heq, hle, hond, hrange⟩ := errColLoopSpec t (att - 1) 0
  refine ⟨i₀, hle, hond, hrange, ?_⟩
  have hE : errInfo t m att =
      .syn m (errLineLoop t (errColLoop t (att - 1) 0).1)
        (errColLoop t (att - 1) 0).2
        (jsSubstr t (att - (errColLoop t (att - 1) 0).2) 20) "" := rfl
  rw [hE, heq]
  have h1 : (i₀, 0 + (att - 1 - i₀)).1 = i₀ := rfl
  have h2 : (i₀, 0 + (att - 1 - i₀)).2 = (att - 1) - i₀ := by
    show 0 + (att - 1 - i₀) = (att - 1) - i₀
    omega
  rw [h1, h2, errLineLoop_eq]
  have h3 : att - ((att - 1) - i₀) = i₀ + 1 := by omega
  rw [h3]

/-- Witness for the amended C7 at the failure of `"x\nabc,"` (cursor 6). -/
theorem c7_error_location_amended_witness :
    (1 : Nat) ≤ 6 ∧
    ∃ i₀, i₀ ≤ 6 - 1 ∧
      (i₀ = 0 ∨ charAt "x\nabc,".data i₀ = some '\n') ∧
      (∀ j, i₀ < j → j ≤ 6 - 1 → charAt "x\nabc,".data j ≠ some '\n') ∧
      errInfo "x\nabc,".data "msg" 6 =
        .syn "msg" (1 + nlCount "x\nabc,".data i₀) ((6 - 1) - i₀)
          (jsSubstr "x\nabc,".data (i₀ + 1) 20) "" :=
  ⟨by decide, c7_error_location_amended "x\nabc,".data "msg" 6 (by decide)⟩

/-- `peek()` right after `next()` reads the head of the unread remainder. -/
theorem ppeek_pnext (t : Text) (s : PState) :
    ppeek t (pnext t s) = (t.drop (s.pos + 1)).head? := by
  have h1 : ppeek t (pnext t s) =
      charAtZ t (((s.pos + 1 : Nat) : Int) + 0) := rfl
  rw [h1, Int.add_zero, List.head?_drop]
  show (if ((s.pos + 1 : Nat) : Int) < 0 then none
    else t[((s.pos + 1 : Nat) : Int).toNat]?) = t[s.pos + 1]?
  rw [if_neg (by omega), Int.toNat_natCast]

/-- The quoteless scan `tfnnsLoop`, with fuel covering the unread remainder,
computes exactly the reference scan `tfnnsRef` over that remainder. -/
theorem tfnnsLoopRef (t : Text) (hooks : List ParseHook) :
    ∀ (fuel : Nat) (v : String) (s : PState), t.length - s.pos < fuel →
      (tfnnsLoop t hooks fuel v s).map (fun r => r.1) =
        .ok (tfnnsRef hooks (t.drop s.pos) v) := by
  intro fuel
  induction fuel with
  | zero =>
    intro v s h
    omega
  | succ f ih =>
    intro v s h
    have hres : ∀ w : String, tfnnsResolveEol hooks w =
        (match tfnnsKeyword w with
        | some kw => kw
        | none =>
          match runDsfP hooks (jsTrim w) with
          | some dv => dv
          | none => .str (jsTrim w)) := fun w => rfl
    have hstep : tfnnsLoop t hooks (f + 1) v s =
        (match charAt t s.pos with
        | none =>
          match tfnnsKeyword v with
          | some w => .ok (w, pnext t s)
          | none =>
            match runDsfP hooks (jsTrim v) with
            | some dv => .ok (dv, pnext t s)
            | none => .ok (.str (jsTrim v), pnext t s)
        | some c =>
          if c = '\r' ∨ c = '\n' then
            match tfnnsKeyword v with
            | some w => .ok (w, pnext t s)
            | none =>
              match runDsfP hooks (jsTrim v) with
              | some dv => .ok (dv, pnext t s)
              | none => .ok (.str (jsTrim v), pnext t s)
          else if c = ',' ∨ c = '}' ∨ c = ']' ∨ c = '#' ∨
              (c = '/' ∧ (ppeek t (pnext t s) = some '/' ∨
                ppeek t (pnext t s) = some '*')) then
            match tfnnsKeyword v with
            | some w => .ok (w, pnext t s)
            | none => tfnnsLoop t hooks f (v.push c) (pnext t s)
          else tfnnsLoop t hooks f (v.push c) (pnext t s)) := rfl
    rcases hc : charAt t s.pos with _ | c
    · have hc2 : t[s.pos]? = none := hc
      have hdrop : t.drop s.pos = [] :=
        List.drop_eq_nil_of_le (List.getElem?_eq_none_iff.mp hc2)
      have hrefNil : tfnnsRef hooks ([] : Text) v =
          tfnnsResolveEol hooks v := rfl
      have hn : tfnnsLoop t hooks (f + 1) v s =
          (match tfnnsKeyword v with
          | some w => .ok (w, pnext t s)
          | none =>
            match runDsfP hooks (jsTrim v) with
            | some dv => .ok (dv, pnext t s)
            | none => .ok (.str (jsTrim v), pnext t s)) := by
        rw [hstep, hc]
      rw [hn, hdrop, hrefNil, hres]
      rcases hk : tfnnsKeyword v with _ | w <;>
        rcases hd : runDsfP hooks (jsTrim v) with _ | dv <;>
          simp only [hk, hd, okMapE]
    · have hc2 : t[s.pos]? = some c := hc
      have hlt : s.pos < t.length := by
        rcases List.getElem?_eq_some_iff.mp hc2 with ⟨hl, _⟩
        exact hl
      have hdropc : t.drop s.pos = c :: t.drop (s.pos + 1) := by
        rw [List.drop_eq_getElem_cons hlt]
        rcases List.getElem?_eq_some_iff.mp hc2 with ⟨hl, hv⟩
        rw [hv]
      have hrefCons : tfnnsRef hooks (c :: t.drop (s.pos + 1)) v =
          (if c = '\r' ∨ c = '\n' then tfnnsResolveEol hooks v
          else if c = ',' ∨ c = '}' ∨ c = ']' ∨ c = '#' ∨
              (c = '/' ∧ ((t.drop (s.pos + 1)).head? = some '/' ∨
                (t.drop (s.pos + 1)).head? = some '*')) then
            match tfnnsKeyword v with
            | some w => w
            | none => tfnnsRef hooks (t.drop (s.pos + 1)) (v.push c)
          else tfnnsRef hooks (t.drop (s.pos + 1)) (v.push c)) := rfl
      have hs2 : tfnnsLoop t hooks (f + 1) v s =
          (if c = '\r' ∨ c = '\n' then
            match tfnnsKeyword v with
            | some w => .ok (w, pnext t s)
            | none =>
              match runDsfP hooks (jsTrim v) with
              | some dv => .ok (dv, pnext t s)
              | none => .ok (.str (jsTrim v), pnext t s)
          else if c = ',' ∨ c = '}' ∨ c = ']' ∨ c = '#' ∨
              (c = '/' ∧ (ppeek t (pnext t s) = some '/' ∨
                ppeek t (pnext t s) = some '*')) then
            match tfnnsKeyword v with
            | some w => .ok (w, pnext t s)
            | none => tfnnsLoop t hooks f (v.push c) (pnext t s)
          else tfnnsLoop t hooks f (v.push c) (pnext t s)) := by
        rw [hstep, hc]
      rw [hs2, hdropc, hrefCons, ppeek_pnext]
      by_cases h1 : c = '\r' ∨ c = '\n'
      · rw [if_pos h1, if_pos h1, hres]
        rcases hk : tfnnsKeyword v with _ | w <;>
          rcases hd : runDsfP hooks (jsTrim v) with _ | dv <;>
            simp only [hk, hd, okMapE]
      · rw [if_neg h1, if_neg h1]
        by_cases h2 : c = ',' ∨ c = '}' ∨ c = ']' ∨ c = '#' ∨
            (c = '/' ∧ ((t.drop (s.pos + 1)).head? = some '/' ∨
              (t.drop (s.pos + 1)).head? = some '*'))
        · rw [if_pos h2, if_pos h2]
          rcases hk : tfnnsKeyword v with _ | w
          · simp only [hk]
            exact ih (v.push c) (pnext t s) (by
              show t.length - (s.pos + 1) < f
              omega)
          · simp only [hk, okMapE]
        · rw [if_neg h2, if_neg h2]
          exact ih (v.push c) (pnext t s) (by
            show t.length - (s.pos + 1) < f
            omega)

/-- **C6** amended: a leading structural punctuator is rejected immediately;
otherwise the quoteless scan resolves the token at end-of-input or a line
break (keyword first, then trim, then the DSF hooks in order, then the
trimmed text as a string), while `','`, `'\x7d'`, `']'`, `'#'`, `'//'` and
`'/*'` only pause the scan for a keyword/number attempt and are absorbed into
the token when that attempt fails. -/
theorem c6_tfnns_resolution (t : Text) (hooks : List ParseHook) (fuel : Nat)
    (s : PState) (hfuel : t.length - s.pos < fuel) :
    (chPunct s.ch = true →
      tfnns t hooks fuel s = .error (errInfo t
        ("Found a punctuator character '" ++ chStr s.ch ++
          "' when expecting a quoteless string (check your syntax)") s.pos)) ∧
    (chPunct s.ch = false →
      (tfnns t hooks fuel s).map (fun r => r.1) =
        .ok (tfnnsRef hooks (t.drop s.pos) (chStr s.ch))) := by
  have htf : tfnns t hooks fuel s =
      (if chPunct s.ch then .error (errInfo t
        ("Found a punctuator character '" ++ chStr s.ch ++
          "' when expecting a quoteless string (check your syntax)") s.pos)
      else tfnnsLoop t hooks fuel (chStr s.ch) s) := rfl
  constructor
  · intro h
    rw [htf, if_pos h]
  · intro h
    rw [htf, if_neg (by rw [h]; exact Bool.false_ne_true)]
    exact tfnnsLoopRef t hooks fuel (chStr s.ch) s hfuel

/-- Witness for the amended C6 on the input `a,b`: the comma is absorbed and
the reference scan agrees with the parser. -/
theorem c6_tfnns_resolution_witness :
    (tfnns "a,b".data [] 64 ⟨1, some 'a'⟩).map (fun r => r.1) =
      .ok (tfnnsRef [] ("a,b".data.drop 1) (chStr (some 'a'))) :=
  (c6_tfnns_resolution "a,b".data [] 64 ⟨1, some 'a'⟩ (by decide)).2 rfl

/-- `Except` bind as an explicit match. -/
theorem bindMatchE {α β : Type} (x : Except PErr α) (g : α → Except PErr β) :
    (x >>= g) = match x with | .error e => .error e | .ok a => g a := by
  cases x <;> rfl

/-- `payload` strips the store of an array node. -/
theorem payload_arr (l : List AValue) (cm : Option Comments) :
    payload (.arr l cm) = .arr (payloadL l) := rfl

/-- `payload` strips the store of an object node. -/
theorem payload_obj (l : List (String × AValue)) (cm : Option Comments) :
    payload (.obj l cm) = .obj (payloadF l) := rfl

/-- Rewriting the store does not change the payload. -/
theorem payload_setCommentStore (v : AValue) (c : Option Comments) :
    payload (setCommentStore v c) = payload v := by
  cases v <;> rfl

/-- The member keys of a payload are the member keys of the value. -/
theorem payloadF_keys_any (l : List (String × AValue)) (k : String) :
    (payloadF l).any (fun p => p.1 = k) = l.any (fun p => p.1 = k) := by
  induction l with
  | nil => rfl
  | cons p rest ih =>
    obtain ⟨k0, v0⟩ := p
    have h1 : payloadF ((k0, v0) :: rest) = (k0, payload v0) :: payloadF rest :=
      rfl
    rw [h1, List.any_cons, List.any_cons, ih]

/-- Setting an element whose payload is unchanged keeps the array payload. -/
theorem payloadL_set (l : List AValue) :
    ∀ (i : Nat) (x : AValue), payload x = payload (l.getD i .undef) →
      payloadL (l.set i x) = payloadL l := by
  induction l with
  | nil =>
    intro i x h
    rfl
  | cons v rest ih =>
    intro i x h
    cases i with
    | zero =>
      have h1 : payloadL ((v :: rest).set 0 x) = payload x :: payloadL rest :=
        rfl
      have h2 : payloadL (v :: rest) = payload v :: payloadL rest := rfl
      rw [h1, h2, h]
      rfl
    | succ i =>
      have h1 : payloadL ((v :: rest).set (i + 1) x) =
          payload v :: payloadL (rest.set i x) := rfl
      have h2 : payloadL (v :: rest) = payload v :: payloadL rest := rfl
      rw [h1, h2, ih i x h]

/-- Array elements of a key-unique payload are key-unique. -/
theorem uniqL_getD (l : List AValue) :
    ∀ i : Nat, uniqKeysJL (payloadL l) = true →
      uniqKeysJ (payload (l.getD i .undef)) = true := by
  induction l with
  | nil =>
    intro i h
    rfl
  | cons v rest ih =>
    intro i h
    have h1 : uniqKeysJL (payloadL (v :: rest)) =
        (uniqKeysJ (payload v) && uniqKeysJL (payloadL rest)) := rfl
    rw [h1, Bool.and_eq_true] at h
    cases i with
    | zero => exact h.1
    | succ i => exact ih i h.2

/-- The member looked up in a key-unique payload is key-unique. -/
theorem uniqF_assocGet (l : List (String × AValue)) (k : String) :
    uniqKeysJF (payloadF l) = true →
      uniqKeysJ (payload ((assocGet l k).getD .undef)) = true := by
  induction l with
  | nil =>
    intro h
    rfl
  | cons p rest ih =>
    obtain ⟨k0, v0⟩ := p
    intro h
    have h1 : uniqKeysJF (payloadF ((k0, v0) :: rest)) =
        (!((payloadF rest).any (fun p => p.1 = k0)) &&
          uniqKeysJ (payload v0) && uniqKeysJF (payloadF rest)) := rfl
    rw [h1, Bool.and_eq_true, Bool.and_eq_true] at h
    by_cases hk : k0 = k
    · have h2 : assocGet ((k0, v0) :: rest) k = some v0 := by
        show (List.find? (fun p => p.1 = k) ((k0, v0) :: rest)).map (fun p => p.2) =
          some v0
        rw [List.find?_cons_of_pos _ (by simp [hk])]
        rfl
      rw [h2]
      exact h.1.2
    · have h2 : assocGet ((k0, v0) :: rest) k = assocGet rest k := by
        show (List.find? (fun p => p.1 = k) ((k0, v0) :: rest)).map (fun p => p.2) =
          (List.find? (fun p => p.1 = k) rest).map (fun p => p.2)
        rw [List.find?_cons_of_neg _ (by simp [hk])]
      rw [h2]
      exact ih h.2

/-- Replacing entries of an absent key is the identity. -/
theorem mapReplace_of_not_any (k : String) (nv : AValue) :
    ∀ rest : List (String × AValue), rest.any (fun p => p.1 = k) = false →
      rest.map (fun p => if p.1 = k then (k, nv) else p) = rest := by
  intro rest
  induction rest with
  | nil => intro h; rfl
  | cons p tail ih =>
    obtain ⟨k0, v0⟩ := p
    intro h
    rw [List.any_cons] at h
    rcases Bool.or_eq_false_iff.mp h with ⟨h0, htail⟩
    rw [List.map_cons, ih htail, if_neg (by simpa using h0)]

/-- Overwriting an existing member with a payload-equal value keeps the
object payload (keys assumed unique, as the JS runtime guarantees). -/
theorem payloadF_assocSet (k : String) (nv : AValue) :
    ∀ fields : List (String × AValue),
      uniqKeysJF (payloadF fields) = true →
      fields.any (fun p => p.1 = k) = true →
      payload nv = payload ((assocGet fields k).getD .undef) →
      payloadF (assocSet fields k nv) = payloadF fields := by
  intro fields
  induction fields with
  | nil =>
    intro h1 h2 h3
    exact Bool.noConfusion h2
  | cons p rest ih =>
    obtain ⟨k0, v0⟩ := p
    intro h1 h2 h3
    have hu : ((!((payloadF rest).any (fun p => p.1 = k0)) &&
        uniqKeysJ (payload v0)) && uniqKeysJF (payloadF rest)) = true := h1
    rw [Bool.and_eq_true, Bool.and_eq_true] at hu
    have hset : assocSet ((k0, v0) :: rest) k nv =
        ((k0, v0) :: rest).map (fun p => if p.1 = k then (k, nv) else p) := by
      show (if ((k0, v0) :: rest).any (fun p => p.1 = k) then
        ((k0, v0) :: rest).map (fun p => if p.1 = k then (k, nv) else p)
        else ((k0, v0) :: rest) ++ [(k, nv)]) =
        ((k0, v0) :: rest).map (fun p => if p.1 = k then (k, nv) else p)
      rw [if_pos h2]
    by_cases hk : k0 = k
    · subst hk
      have hrest0 : (payloadF rest).any (fun p => p.1 = k0) = false := by
        have hx := hu.1.1
        revert hx
        cases (payloadF rest).any (fun p => p.1 = k0) <;> simp
      have hrest : rest.any (fun p => p.1 = k0) = false := by
        rw [payloadF_keys_any] at hrest0
        exact hrest0
      have hget : assocGet ((k0, v0) :: rest) k0 = some v0 := by
        show (List.find? (fun p => p.1 = k0) ((k0, v0) :: rest)).map
          (fun p => p.2) = some v0
        rw [List.find?_cons_of_pos _ (by simp)]
        rfl
      rw [hget, Option.getD_some] at h3
      rw [hset, List.map_cons, if_pos rfl, mapReplace_of_not_any k0 nv rest hrest]
      have e1 : payloadF ((k0, nv) :: rest) = (k0, payload nv) :: payloadF rest :=
        rfl
      have e2 : payloadF ((k0, v0) :: rest) = (k0, payload v0) :: payloadF rest :=
        rfl
      rw [e1, e2, h3]
    · have hget : assocGet ((k0, v0) :: rest) k = assocGet rest k := by
        show (List.find? (fun p => p.1 = k) ((k0, v0) :: rest)).map
          (fun p => p.2) =
          (List.find? (fun p => p.1 = k) rest).map (fun p => p.2)
        rw [List.find?_cons_of_neg _ (by simp [hk])]
      rw [hget] at h3
      have hany : rest.any (fun p => p.1 = k) = true := by
        rw [List.any_cons] at h2
        rcases Bool.or_eq_true_iff.mp h2 with hh | hh
        · exact absurd (by simpa using hh) hk
        · exact hh
      have ihres := ih hu.2 hany h3
      have hsetrest : assocSet rest k nv =
          rest.map (fun p => if p.1 = k then (k, nv) else p) := by
        show (if rest.any (fun p => p.1 = k) then
          rest.map (fun p => if p.1 = k then (k, nv) else p)
          else rest ++ [(k, nv)]) =
          rest.map (fun p => if p.1 = k then (k, nv) else p)
        rw [if_pos hany]
      rw [hset, List.map_cons, if_neg (by simpa using hk)]
      have e1 : ∀ tail : List (String × AValue),
          payloadF ((k0, v0) :: tail) = (k0, payload v0) :: payloadF tail :=
        fun tail => rfl
      rw [e1, e1, ← hsetrest, ihres]

/-- `Except` bind on an error. -/
theorem errBindE {α β : Type} (e : PErr) (f : α → Except PErr β) :
    (Except.error e >>= f) = .error e := rfl

/-- `Except` bind on a pure value. -/
theorem pureBindE {α β : Type} (a : α) (f : α → Except PErr β) :
    ((pure a : Except PErr α) >>= f) = f a := rfl

/-- The merge traversal rewrites only annotation stores: in all three mutual
loops, the payload of the rebuilt value equals the payload of the input (over
the key-unique values the JS runtime provides). -/
theorem mergePayloadAux : ∀ fuel : Nat,
    (∀ (d : Option CDoc) (v : AValue) (path : List String)
        (r : AValue × List Dropped), uniqKeysJ (payload v) = true →
      mergeRec fuel d v path = .ok r → payload r.1 = payload v) ∧
    (∀ (a : List (Nat × CEntry)) (elems : List AValue) (cm : Comments)
        (dropped : List Dropped) (lastI : Int) (path : List String)
        (r : List AValue × Comments × List Dropped × Int),
      uniqKeysJL (payloadL elems) = true →
      mergeArrEntries fuel a elems cm dropped lastI path = .ok r →
      payloadL r.1 = payloadL elems) ∧
    (∀ (s : List (String × CEntry)) (keys : List String)
        (fields : List (String × AValue)) (cm : Comments)
        (dropped : List Dropped) (path : List String)
        (r : List (String × AValue) × Comments × List Dropped),
      uniqKeysJF (payloadF fields) = true →
      mergeObjKeys fuel s keys fields cm dropped path = .ok r →
      payloadF r.1 = payloadF fields) := by
  intro fuel
  induction fuel with
  | zero =>
    refine ⟨?_, ?_, ?_⟩
    · intro d v path r hwf h
      exact Except.noConfusion ((show mergeRec 0 d v path =
        Except.error PErr.nofuel from rfl) ▸ h)
    · intro a elems cm dropped lastI path r hwf h
      exact Except.noConfusion ((show mergeArrEntries 0 a elems cm dropped
        lastI path = Except.error PErr.nofuel from rfl) ▸ h)
    · intro s keys fields cm dropped path r hwf h
      exact Except.noConfusion ((show mergeObjKeys 0 s keys fields cm dropped
        path = Except.error PErr.nofuel from rfl) ▸ h)
  | succ f ih =>
    obtain ⟨ihR, ihA, ihO⟩ := ih
    refine ⟨?_, ?_, ?_⟩
    · intro d v path r hwf h
      rcases d with _ | d
      · rw [show mergeRec (f + 1) none v path = .ok (v, []) from rfl] at h
        cases h
        rfl
      · cases v with
        | arr elems cm₀ =>
          have key : ∀ cmX : Comments, (do
              let (elems2, cm2, dropped2, lastI2) ←
                mergeArrEntries f (d.aProp.getD []) elems cmX [] (-1) path
              let cm3 :=
                if lastI2 = 0 ∧ d.eProp.isSome then
                  { cm2 with e := some (entryPair (d.eProp.getD
                    (.mk none none none none))) }
                else cm2
              return ((.arr elems2 (some cm3) : AValue), dropped2)) = .ok r →
              payload r.1 = payload (.arr elems cm₀) := by
            intro cmX hh
            rcases hm : mergeArrEntries f (d.aProp.getD []) elems cmX []
                (-1) path with e | ⟨elems2, cm2, dropped2, lastI2⟩
            · rw [hm] at hh
              simp only [errBindE] at hh
              exact Except.noConfusion hh
            · rw [hm] at hh
              simp only [okBindE, pureE] at hh
              cases hh
              have hA2 : payloadL elems2 = payloadL elems :=
                ihA _ _ _ _ _ _ _ (show uniqKeysJL (payloadL elems) = true
                  from hwf) hm
              show JValue.arr (payloadL elems2) = JValue.arr (payloadL elems)
              rw [hA2]
          exact key _ h
        | obj fields cm₀ =>
          have key : ∀ cmX : Comments, (do
              let (fields2, cm2, dropped2) ←
                mergeObjKeys f (d.sProp.getD []) (d.oProp.getD [])
                  fields cmX [] path
              let cm3 :=
                if d.eProp.isSome then
                  { cm2 with e := some (entryPair (d.eProp.getD
                    (.mk none none none none))) }
                else cm2
              return ((.obj fields2 (some cm3) : AValue), dropped2)) = .ok r →
              payload r.1 = payload (.obj fields cm₀) := by
            intro cmX hh
            rcases hm : mergeObjKeys f (d.sProp.getD []) (d.oProp.getD [])
                fields cmX [] path with e | ⟨fields2, cm2, dropped2⟩
            · rw [hm] at hh
              simp only [errBindE] at hh
              exact Except.noConfusion hh
            · rw [hm] at hh
              simp only [okBindE, pureE] at hh
              cases hh
              have hO2 : payloadF fields2 = payloadF fields :=
                ihO _ _ _ _ _ _ _ (show uniqKeysJF (payloadF fields) = true
                  from hwf) hm
              show JValue.obj (payloadF fields2) = JValue.obj (payloadF fields)
              rw [hO2]
          exact key _ h
        | null =>
          rw [show mergeRec (f + 1) (some d) .null path =
            ((dropAllF (f + 1) (some d) path) >>=
              fun ds => pure ((.null : AValue), ds)) from rfl] at h
          rcases hd2 : dropAllF (f + 1) (some d) path with e | ds
          · rw [hd2, errBindE] at h
            exact Except.noConfusion h
          · rw [hd2] at h
            simp only [okBindE, pureE] at h
            cases h
            rfl
        | bool b =>
          rw [show mergeRec (f + 1) (some d) (.bool b) path =
            ((dropAllF (f + 1) (some d) path) >>=
              fun ds => pure ((.bool b : AValue), ds)) from rfl] at h
          rcases hd2 : dropAllF (f + 1) (some d) path with e | ds
          · rw [hd2, errBindE] at h
            exact Except.noConfusion h
          · rw [hd2] at h
            simp only [okBindE, pureE] at h
            cases h
            rfl
        | num n =>
          rw [show mergeRec (f + 1) (some d) (.num n) path =
            ((dropAllF (f + 1) (some d) path) >>=
              fun ds => pure ((.num n : AValue), ds)) from rfl] at h
          rcases hd2 : dropAllF (f + 1) (some d) path with e | ds
          · rw [hd2, errBindE] at h
            exact Except.noConfusion h
          · rw [hd2] at h
            simp only [okBindE, pureE] at h
            cases h
            rfl
        | str s0 =>
          rw [show mergeRec (f + 1) (some d) (.str s0) path =
            ((dropAllF (f + 1) (some d) path) >>=
              fun ds => pure ((.str s0 : AValue), ds)) from rfl] at h
          rcases hd2 : dropAllF (f + 1) (some d) path with e | ds
          · rw [hd2, errBindE] at h
            exact Except.noConfusion h
          · rw [hd2] at h
            simp only [okBindE, pureE] at h
            cases h
            rfl
        | undef =>
          rw [show mergeRec (f + 1) (some d) .undef path =
            ((dropAllF (f + 1) (some d) path) >>=
              fun ds => pure ((.undef : AValue), ds)) from rfl] at h
          rcases hd2 : dropAllF (f + 1) (some d) path with e | ds
          · rw [hd2, errBindE] at h
            exact Except.noConfusion h
          · rw [hd2] at h
            simp only [okBindE, pureE] at h
            cases h
            rfl
    · intro a elems cm dropped lastI path r hwf h
      rcases a with _ | ⟨⟨i, c⟩, rest⟩
      · rw [show mergeArrEntries (f + 1) [] elems cm dropped lastI path =
          .ok (elems, cm, dropped, lastI) from rfl] at h
        cases h
        rfl
      · have he : mergeArrEntries (f + 1) ((i, c) :: rest) elems cm dropped
            lastI path = (do
            let (elems2, cm2, dropped2) ←
              if i < elems.length then do
                let cmN := { cm with
                  a := some (sparseSet (cm.a.getD []) i (entryPair c)) }
                let (nv, ds) ←
                  mergeRec f c.x (elems.getD i .undef) (path ++ [toString i])
                pure (elems.set i nv, cmN, dropped ++ ds)
              else do
                let dd ← droppedComment (path ++ [toString i]) c
                let ds ← dropAllF f c.x (path ++ [toString i])
                pure (elems, cm, dropped ++ [dd] ++ ds)
            mergeArrEntries f rest elems2 cm2 dropped2 (i : Int) path) := rfl
        rw [he] at h
        by_cases hlt : i < elems.length
        · rw [if_pos hlt] at h
          rcases hmr : mergeRec f c.x (elems.getD i .undef)
              (path ++ [toString i]) with e | ⟨nv, ds⟩
          · rw [hmr] at h
            simp only [errBindE] at h
            exact Except.noConfusion h
          · rw [hmr] at h
            simp only [okBindE, pureBindE] at h
            have hz2 : payload nv = payload (elems.getD i .undef) :=
              ihR _ _ _ _ (uniqL_getD elems i hwf) hmr
            have hset := payloadL_set elems i nv hz2
            have hwf2 : uniqKeysJL (payloadL (elems.set i nv)) = true := by
              rw [hset]
              exact hwf
            have hA := ihA _ _ _ _ _ _ _ hwf2 h
            rw [hA, hset]
        · rw [if_neg hlt] at h
          rcases hdd : droppedComment (path ++ [toString i]) c with e | dd
          · rw [hdd] at h
            simp only [errBindE] at h
            exact Except.noConfusion h
          · rw [hdd] at h
            simp only [okBindE] at h
            rcases hds : dropAllF f c.x (path ++ [toString i]) with e | ds
            · rw [hds] at h
              simp only [errBindE] at h
              exact Except.noConfusion h
            · rw [hds] at h
              simp only [okBindE, pureBindE] at h
              exact ihA _ _ _ _ _ _ _ hwf h
    · intro s keys fields cm dropped path r hwf h
      rcases keys with _ | ⟨key, rest⟩
      · rw [show mergeObjKeys (f + 1) s [] fields cm dropped path =
          .ok (fields, cm, dropped) from rfl] at h
        cases h
        rfl
      · have he : mergeObjKeys (f + 1) s (key :: rest) fields cm dropped
            path = (do
            let (fields2, cm2, dropped2) ←
              if fields.any (fun p => p.1 = key) then do
                let cmN := { cm with o := cm.o.map (fun os => os ++ [key]) }
                match assocGet s key with
                | some c => do
                  let cmN2 := { cmN with
                    c := some (assocSet (cmN.c.getD []) key (entryPair c)) }
                  let (nv, ds) ←
                    mergeRec f c.x ((assocGet fields key).getD .undef)
                      (path ++ [key])
                  pure (assocSet fields key nv, cmN2, dropped ++ ds)
                | none => pure (fields, cmN, dropped)
              else
                match assocGet s key with
                | some c => do
                  let dd ← droppedComment (path ++ [key]) c
                  let ds ← dropAllF f c.x (path ++ [key])
                  pure (fields, cm, dropped ++ [dd] ++ ds)
                | none => pure (fields, cm, dropped)
            mergeObjKeys f s rest fields2 cm2 dropped2 path) := rfl
        rw [he] at h
        by_cases hany : fields.any (fun p => p.1 = key) = true
        · rw [if_pos hany] at h
          rcases hc : assocGet s key with _ | c0
          · simp only [hc, pureBindE] at h
            exact ihO _ _ _ _ _ _ _ hwf h
          · simp only [hc] at h
            rcases hmr : mergeRec f c0.x ((assocGet fields key).getD .undef)
                (path ++ [key]) with e | ⟨nv, ds⟩
            · rw [hmr] at h
              simp only [errBindE] at h
              exact Except.noConfusion h
            · rw [hmr] at h
              simp only [okBindE, pureBindE] at h
              have hz2 : payload nv =
                  payload ((assocGet fields key).getD .undef) :=
                ihR _ _ _ _ (uniqF_assocGet fields key hwf) hmr
              have hset := payloadF_assocSet key nv fields hwf hany hz2
              have hwf2 : uniqKeysJF (payloadF (assocSet fields key nv)) =
                  true := by
                rw [hset]
                exact hwf
              have hO := ihO _ _ _ _ _ _ _ hwf2 h
              rw [hO, hset]
        · rw [if_neg hany] at h
          rcases hc : assocGet s key with _ | c0
          · simp only [hc, pureBindE] at h
            exact ihO _ _ _ _ _ _ _ hwf h
          · simp only [hc] at h
            rcases hdd : droppedComment (path ++ [key]) c0 with e | dd
            · rw [hdd] at h
              simp only [errBindE] at h
              exact Except.noConfusion h
            · rw [hdd] at h
              simp only [okBindE] at h
              rcases hds : dropAllF f c0.x (path ++ [key]) with e | ds
              · rw [hds] at h
                simp only [errBindE] at h
                exact Except.noConfusion h
              · rw [hds] at h
                simp only [okBindE, pureBindE] at h
                exact ihO _ _ _ _ _ _ _ hwf h

/-- `rootComment` rewrites only the root store. -/
theorem rootCommentPayload (v : AValue) (setText : Option String)
    (footer : Bool) (r : String × AValue)
    (h : rootComment v setText footer = .ok r) : payload r.2 = payload v := by
  have hun : rootComment v setText footer = (match getComment v with
      | none => .error (.typeErr "Cannot read properties of undefined (reading r)")
      | some cm =>
        let r0 := cm.r.getD ("", "")
        let r1 :=
          if footer then (r0.1, forceComment (setText.getD ""))
          else (forceComment (setText.getD ""), r0.2)
        .ok ((if footer then r1.2 else r1.1),
          setCommentStore v (some { cm with r := some r1 }))) := rfl
  rw [hun] at h
  rcases hg : getComment v with _ | cm
  · rw [hg] at h
    exact Except.noConfusion h
  · rw [hg] at h
    cases h
    exact payload_setCommentStore v _

/-- **C8** (merge mutates only the annotation store): confirmed.  For every
portable comment document, every fuel budget and every target value whose
object keys are duplicate-free (as the JS runtime guarantees), a successful
`mergeComments` returns a value with the same payload — every key, array
element and scalar is unchanged; only annotation stores are rewritten. -/
theorem c8_merge_mutates_only_annotations :
    ∀ (d : Option CDoc) (v : AValue) (fuel : Nat) (v2 : AValue),
      uniqKeysJ (payload v) = true →
      mergeComments d v fuel = .ok v2 → payload v2 = payload v := by
  intro d v fuel v2 hwf h
  rcases d with _ | d
  · rw [show mergeComments none v fuel = .ok v from rfl] at h
    cases h
    rfl
  · have key : ∀ (x : Except PErr (AValue × List Dropped)),
        (∀ v1 dropped, x = .ok (v1, dropped) → payload v1 = payload v) →
        (do
          let (v1, dropped) ← x
          if ¬dropped.isEmpty then do
            let (text, v1b) ← rootComment v1 (some "") true
            let text := text ++ "\n# Orphaned comments:\n"
            let text := text ++ String.join (dropped.map orphanLine)
            let (_, v1c) ← rootComment v1b (some text) true
            return v1c
          else return v1) = .ok v2 →
        payload v2 = payload v := by
      intro x hx hh
      rcases hxe : x with e | ⟨v1, dropped⟩
      · rw [hxe] at hh
        simp only [errBindE] at hh
        exact Except.noConfusion hh
      · rw [hxe] at hh
        simp only [okBindE] at hh
        have hp1 : payload v1 = payload v := hx v1 dropped hxe
        by_cases hne : ¬dropped.isEmpty
        · rw [if_pos hne] at hh
          rcases hr1 : rootComment v1 (some "") true with e | ⟨text1, v1b⟩
          · rw [hr1] at hh
            simp only [errBindE] at hh
            exact Except.noConfusion hh
          · rw [hr1] at hh
            simp only [okBindE] at hh
            rcases hr2 : rootComment v1b
                (some (text1 ++ "\n# Orphaned comments:\n" ++
                  String.join (dropped.map orphanLine))) true with
              e | ⟨t2, v1c⟩
            · rw [hr2] at hh
              simp only [errBindE] at hh
              exact Except.noConfusion hh
            · rw [hr2] at hh
              simp only [okBindE, pureE] at hh
              have hinj : v1c = v2 := by
                cases hh
                rfl
              rw [← hinj]
              calc payload v1c = payload v1b :=
                    rootCommentPayload (v1b) (some (text1 ++
                      "\n# Orphaned comments:\n" ++
                      String.join (dropped.map orphanLine))) true (t2, v1c) hr2
                _ = payload v1 := rootCommentPayload v1 (some "") true
                    (text1, v1b) hr1
                _ = payload v := hp1
        · rw [if_neg hne] at hh
          cases hh
          exact hp1
    have hm : ∀ v1 dropped, mergeRec fuel (some d) v [] = .ok (v1, dropped) →
        payload v1 = payload v := by
      intro v1 dropped hmr
      exact ((mergePayloadAux fuel).1 _ _ _ _ hwf hmr : payload (v1, dropped).1 = payload v)
    exact key (mergeRec fuel (some d) v []) hm h

/-- Witness for C8: reattaching a document whose key `b` was deleted from the
value only adds an orphan footer to the root store; the payload is intact. -/
theorem c8_merge_mutates_only_annotations_witness :
    uniqKeysJ (payload (.obj [("a", .num (.fin 1))] none)) = true ∧
    mergeComments
        (some (.objD [("b", .mk (some "# c") none none none)] ["b"] none none))
        (.obj [("a", .num (.fin 1))] none) 50 =
      .ok (.obj [("a", .num (.fin 1))]
        (some { r := some ("", "\n# Orphaned comments:\n# b: # c\n") })) ∧
    payload (.obj [("a", .num (.fin 1))]
        (some { r := some ("", "\n# Orphaned comments:\n# b: # c\n") })) =
      payload (.obj [("a", .num (.fin 1))] none) :=
  ⟨rfl, rfl,
   c8_merge_mutates_only_annotations
     (some (.objD [("b", .mk (some "# c") none none none)] ["b"] none none))
     (.obj [("a", .num (.fin 1))] none) 50
     (.obj [("a", .num (.fin 1))]
       (some { r := some ("", "\n# Orphaned comments:\n# b: # c\n") }))
     rfl rfl⟩

end Hjson
